import Mathlib

/-!
# Verification of the github-etl pipeline

Shallow embedding of the `github-etl` repository (src/extract.py,
src/transform.py, src/load.py, src/main.py, src/analyze.py) and proofs
about it.

Conventions of the embedding:
* Python `None`-able string fields become `Option String`; Python
  truthiness of such a value (`None` and `""` are falsy) is `truthyStr`.
* `datetime` values are abstracted as `Nat` timestamps (a `datetime`
  object is always truthy, so truthiness of an optional datetime field is
  `Option.isSome`).
* Python `dict`s used as keyed maps become association lists with
  Python's insertion-order/overwrite semantics (`dictInsert`,
  `dictValues`).
* The SQLite store is a record of four row lists (append-only within a
  run); `SELECT ... .first()` is `List.find?` over the rows in insertion
  order, which matches SQLite's rowid scan for these append-only tables.
* Exceptions raised inside `GitHubLoader.load_data`'s `try` block
  (IntegrityError on flush/commit for NOT NULL or UNIQUE violations) are
  modelled with `Except Unit`; the handler returns `False` and the
  session is discarded without commit, so the store is left unchanged.
-/

namespace GithubEtl

/-- Python truthiness of an optional string: `None` and `""` are falsy. -/
def truthyStr (o : Option String) : Bool :=
  match o with
  | none => false
  | some s => !s.isEmpty

/-- Python `a or b` on optional strings: yields `a` when `a` is truthy,
otherwise `b` (which may itself be falsy). -/
def pyOr (a b : Option String) : Option String :=
  if truthyStr a then a else b

/-! ## Transformer (src/transform.py) -/

/-- A committer/author sub-record of a raw commit, as produced by
`GitHubExtractor._process_commit` (keys `login`, `name`, `email`,
`avatar_url`). -/
structure RawPerson where
  login : Option String
  name : Option String
  email : Option String
  avatar_url : Option String
  deriving DecidableEq, Repr

/-- A raw commit record, as produced by `GitHubExtractor._process_commit`
and consumed by `GitHubTransformer.transform_data`. -/
structure RawCommit where
  sha : Option String
  message : Option String
  committed_at : Option Nat
  authored_at : Option Nat
  committer : RawPerson
  author : RawPerson
  deriving DecidableEq, Repr

/-- A normalized person record (`_transform_committer` /
`_transform_author` output). -/
structure Person where
  login : Option String
  name : Option String
  email : Option String
  avatar_url : Option String
  deriving DecidableEq, Repr

/-- Repository data (both the extractor's `get_repository_info` output and
the transformer's `_transform_repository` output have these fields). -/
structure RepoData where
  name : Option String
  owner : Option String
  full_name : Option String
  description : Option String
  url : Option String
  created_at : Option Nat
  deriving DecidableEq, Repr

/-- A transformed commit (`_transform_commit` output dict). -/
structure TCommit where
  sha : Option String
  message : Option String
  committed_at : Option Nat
  authored_at : Option Nat
  committer_key : Option String
  author_key : Option String
  deriving DecidableEq, Repr

/-- Python dict assignment `d[k] = v`: overwrites in place if the key is
present (keeping its insertion position), else appends. -/
def dictInsert (k : String) (v : Person) (d : List (String × Person)) :
    List (String × Person) :=
  if d.any (fun p => p.1 == k) then
    d.map (fun p => if p.1 == k then (k, v) else p)
  else d ++ [(k, v)]

/-- Python `d.get(k)`. -/
def dictGet (d : List (String × Person)) (k : String) : Option Person :=
  (d.find? (fun p => p.1 == k)).map (fun p => p.2)

/-- Python `list(d.values())` (insertion order). -/
def dictValues (d : List (String × Person)) : List Person :=
  d.map (fun p => p.2)

/-- `GitHubTransformer._transform_committer`: rebuilds the four fields
from the sub-record. -/
def transformCommitter (c : RawPerson) : Person :=
  { login := c.login, name := c.name, email := c.email,
    avatar_url := c.avatar_url }

/-- `GitHubTransformer._transform_author`: identical to
`_transform_committer`. -/
def transformAuthor (a : RawPerson) : Person :=
  { login := a.login, name := a.name, email := a.email,
    avatar_url := a.avatar_url }

/-- `GitHubTransformer._transform_repository`. A Python-falsy `repo_info`
(`None`, modelled as `none`) yields `None`; otherwise the six fields are
rebuilt. -/
def transformRepository (repo_info : Option RepoData) : Option RepoData :=
  match repo_info with
  | none => none
  | some r =>
      some { name := r.name, owner := r.owner, full_name := r.full_name,
             description := r.description, url := r.url,
             created_at := r.created_at }

/-- `GitHubTransformer._transform_commit`: `None` when `sha` or
`committed_at` is Python-falsy (the guard `not commit_data` is subsumed:
a raw commit that is the empty dict has falsy `sha`). -/
def transformCommit (c : RawCommit) (ck ak : Option String) :
    Option TCommit :=
  if !truthyStr c.sha || !c.committed_at.isSome then none
  else
    some { sha := c.sha, message := c.message,
           committed_at := c.committed_at, authored_at := c.authored_at,
           committer_key := ck, author_key := ak }

/-- The body of the `for commit in commits_data` loop of
`GitHubTransformer.transform_data`, threading the two identity-keyed
dicts and the emitted commit list. (The `if not commit: continue` guard
only skips the empty dict, which contributes nothing in either branch.) -/
def transformLoop (cd ad : List (String × Person)) (ts : List TCommit) :
    List RawCommit → List (String × Person) × List (String × Person) × List TCommit
  | [] => (cd, ad, ts)
  | c :: rest =>
      let committer := transformCommitter c.committer
      let ck := pyOr committer.login committer.email
      let cd' := if truthyStr ck then dictInsert (ck.getD "") committer cd else cd
      let author := transformAuthor c.author
      let ak := pyOr author.login author.email
      let ad' := if truthyStr ak then dictInsert (ak.getD "") author ad else ad
      let ts' := match transformCommit c ck ak with
        | some t => ts ++ [t]
        | none => ts
      transformLoop cd' ad' ts' rest

/-- `GitHubTransformer.transform_data`. -/
def transform_data (repo_info : Option RepoData) (commits_data : List RawCommit) :
    Option RepoData × List Person × List Person × List TCommit :=
  let repository := transformRepository repo_info
  let (cd, ad, ts) := transformLoop [] [] [] commits_data
  (repository, dictValues cd, dictValues ad, ts)

/-- The identity key (`login` if truthy else `email`) of a raw commit's
committer sub-record, as computed in `transform_data`. -/
def committerKeyOf (c : RawCommit) : Option String :=
  pyOr (transformCommitter c.committer).login (transformCommitter c.committer).email

/-- The identity key of a raw commit's author sub-record. -/
def authorKeyOf (c : RawCommit) : Option String :=
  pyOr (transformAuthor c.author).login (transformAuthor c.author).email

/-- The last raw commit in `cs` whose committer has identity key `k`
(truthy), normalized — i.e. the record whose fields a "last-seen wins"
dictionary keeps. -/
def lastCommitterWith (k : String) (cs : List RawCommit) : Option Person :=
  (cs.reverse.find? (fun c => committerKeyOf c == some k && truthyStr (committerKeyOf c))).map
    (fun c => transformCommitter c.committer)

/-- Committer dictionary produced by `transform_data`'s loop. -/
def committersDictOf (cs : List RawCommit) : List (String × Person) :=
  (transformLoop [] [] [] cs).1

theorem dictGet_dictInsert_self (k : String) (v : Person)
    (d : List (String × Person)) : dictGet (dictInsert k v d) k = some v := by
  unfold dictInsert dictGet
  by_cases h : d.any (fun p => p.1 == k)
  · rw [if_pos h, List.find?_map]
    have hcomp : ((fun p : String × Person => p.1 == k) ∘
        (fun p : String × Person => if p.1 == k then (k, v) else p))
        = fun p : String × Person => p.1 == k := by
      funext p
      by_cases hp : p.1 = k
      · simp [hp]
      · simp [hp]
    rw [hcomp]
    have hs : (d.find? (fun p => p.1 == k)).isSome := by
      rw [List.find?_isSome]
      simpa [List.any_eq_true] using h
    obtain ⟨p, hf⟩ := Option.isSome_iff_exists.mp hs
    have hp := List.find?_some hf
    simp only [beq_iff_eq] at hp
    rw [hf]
    simp [hp]
  · rw [if_neg h, List.find?_append]
    have hn : d.find? (fun p => p.1 == k) = none := by
      rw [List.find?_eq_none]
      intro p hp hk
      exact h (List.any_eq_true.mpr ⟨p, hp, hk⟩)
    simp [hn, List.find?]

theorem dictGet_dictInsert_ne (k k' : String) (v : Person)
    (d : List (String × Person)) (hne : k' ≠ k) :
    dictGet (dictInsert k' v d) k = dictGet d k := by
  unfold dictInsert dictGet
  have hk'k : (k' == k) = false := beq_eq_false_iff_ne.mpr hne
  by_cases h : d.any (fun p => p.1 == k')
  · rw [if_pos h, List.find?_map]
    have hcomp : ((fun p : String × Person => p.1 == k) ∘
        (fun p : String × Person => if p.1 == k' then (k', v) else p))
        = fun p : String × Person => p.1 == k := by
      funext p
      by_cases hp : p.1 = k'
      · have hpk : p.1 ≠ k := by rw [hp]; exact hne
        simp [hp, hk'k, hpk]
      · simp [hp]
    rw [hcomp]
    cases hf : d.find? (fun p => p.1 == k) with
    | none => simp
    | some p =>
        have hp := List.find?_some hf
        simp only [beq_iff_eq] at hp
        have hpk' : p.1 ≠ k' := by rw [hp]; exact fun hc => hne hc.symm
        simp [hpk']
  · rw [if_neg h, List.find?_append]
    cases hf : d.find? (fun p => p.1 == k) with
    | some p => simp
    | none => simp [List.find?, hk'k]

/-- Unfolding of one iteration of the transformer's loop. -/
theorem transformLoop_cons (cd ad : List (String × Person)) (ts : List TCommit)
    (c : RawCommit) (rest : List RawCommit) :
    transformLoop cd ad ts (c :: rest) =
      transformLoop
        (if truthyStr (committerKeyOf c) then
          dictInsert ((committerKeyOf c).getD "") (transformCommitter c.committer) cd
         else cd)
        (if truthyStr (authorKeyOf c) then
          dictInsert ((authorKeyOf c).getD "") (transformAuthor c.author) ad
         else ad)
        (match transformCommit c (committerKeyOf c) (authorKeyOf c) with
          | some t => ts ++ [t]
          | none => ts)
        rest := rfl

/-- The predicate "raw commit `c`'s committer has (truthy) identity key
`k`". -/
def hasCommitterKey (k : String) (c : RawCommit) : Bool :=
  committerKeyOf c == some k && truthyStr (committerKeyOf c)

theorem lastCommitterWith_cons (k : String) (c : RawCommit)
    (cs : List RawCommit) :
    lastCommitterWith k (c :: cs) =
      (lastCommitterWith k cs).or
        (if hasCommitterKey k c then some (transformCommitter c.committer) else none) := by
  unfold lastCommitterWith hasCommitterKey
  rw [List.reverse_cons, List.find?_append]
  cases hf : cs.reverse.find?
      (fun c => committerKeyOf c == some k && truthyStr (committerKeyOf c)) with
  | some q => simp
  | none =>
      by_cases hc : (committerKeyOf c == some k && truthyStr (committerKeyOf c)) = true
      · simp [List.find?, hc]
      · simp only [Bool.not_eq_true] at hc
        simp [List.find?, hc]

/-- After running the transformer's loop, the committer dictionary's entry
for key `k` holds the normalized fields of the **last** raw commit whose
committer has key `k` (falling back to the initial dictionary if none). -/
theorem transformLoop_committers_last (cs : List RawCommit) :
    ∀ (d ad : List (String × Person)) (ts : List TCommit) (k : String),
      dictGet (transformLoop d ad ts cs).1 k =
        (lastCommitterWith k cs).or (dictGet d k) := by
  induction cs with
  | nil =>
      intro d ad ts k
      simp [transformLoop, lastCommitterWith]
  | cons c rest ih =>
      intro d ad ts k
      rw [lastCommitterWith_cons]
      show dictGet (transformLoop
        (if truthyStr (committerKeyOf c) then
          dictInsert ((committerKeyOf c).getD "") (transformCommitter c.committer) d
         else d) _ _ rest).1 k = _
      rw [ih]
      cases hlast : lastCommitterWith k rest with
      | some p => simp
      | none =>
          simp only [Option.none_or]
          by_cases hck : truthyStr (committerKeyOf c)
          · rw [if_pos hck]
            cases hkey : committerKeyOf c with
            | none => rw [hkey] at hck; simp [truthyStr] at hck
            | some k' =>
                rw [hkey] at hck
                by_cases hkk : k' = k
                · have hhk : hasCommitterKey k c = true := by
                    unfold hasCommitterKey
                    rw [hkey, hkk]
                    rw [hkk] at hck
                    simp [hck]
                  rw [if_pos hhk]
                  simp only [Option.getD_some]
                  rw [hkk, dictGet_dictInsert_self]
                  simp
                · have hhk : hasCommitterKey k c = false := by
                    unfold hasCommitterKey
                    rw [hkey]
                    simp [hkk]
                  rw [if_neg (by simp [hhk])]
                  simp only [Option.getD_some]
                  rw [dictGet_dictInsert_ne k k' (transformCommitter c.committer) d hkk]
                  simp
          · rw [if_neg hck]
            have hhk : hasCommitterKey k c = false := by
              unfold hasCommitterKey
              simp only [Bool.not_eq_true] at hck
              simp [hck]
            rw [if_neg (by simp [hhk])]
            simp

/-- The predicate "raw commit `c`'s author has (truthy) identity key
`k`". -/
def hasAuthorKey (k : String) (c : RawCommit) : Bool :=
  authorKeyOf c == some k && truthyStr (authorKeyOf c)

/-- The last raw commit in `cs` whose author has identity key `k`
(truthy), normalized — the record whose fields a "last-seen wins"
dictionary keeps. -/
def lastAuthorWith (k : String) (cs : List RawCommit) : Option Person :=
  (cs.reverse.find? (fun c => authorKeyOf c == some k && truthyStr (authorKeyOf c))).map
    (fun c => transformAuthor c.author)

/-- Author dictionary produced by `transform_data`'s loop. -/
def authorsDictOf (cs : List RawCommit) : List (String × Person) :=
  (transformLoop [] [] [] cs).2.1

theorem lastAuthorWith_cons (k : String) (c : RawCommit)
    (cs : List RawCommit) :
    lastAuthorWith k (c :: cs) =
      (lastAuthorWith k cs).or
        (if hasAuthorKey k c then some (transformAuthor c.author) else none) := by
  unfold lastAuthorWith hasAuthorKey
  rw [List.reverse_cons, List.find?_append]
  cases hf : cs.reverse.find?
      (fun c => authorKeyOf c == some k && truthyStr (authorKeyOf c)) with
  | some q => simp
  | none =>
      by_cases hc : (authorKeyOf c == some k && truthyStr (authorKeyOf c)) = true
      · simp [List.find?, hc]
      · simp only [Bool.not_eq_true] at hc
        simp [List.find?, hc]

/-- After running the transformer's loop, the author dictionary's entry
for key `k` holds the normalized fields of the **last** raw commit whose
author has key `k` (falling back to the initial dictionary if none) —
the author side is the same `dict[key] = value` assignment as the
committer side. -/
theorem transformLoop_authors_last (cs : List RawCommit) :
    ∀ (cd ad : List (String × Person)) (ts : List TCommit) (k : String),
      dictGet (transformLoop cd ad ts cs).2.1 k =
        (lastAuthorWith k cs).or (dictGet ad k) := by
  induction cs with
  | nil =>
      intro cd ad ts k
      simp [transformLoop, lastAuthorWith]
  | cons c rest ih =>
      intro cd ad ts k
      rw [lastAuthorWith_cons, transformLoop_cons, ih]
      cases hlast : lastAuthorWith k rest with
      | some p => simp
      | none =>
          simp only [Option.none_or]
          by_cases hck : truthyStr (authorKeyOf c)
          · rw [if_pos hck]
            cases hkey : authorKeyOf c with
            | none => rw [hkey] at hck; simp [truthyStr] at hck
            | some k' =>
                rw [hkey] at hck
                by_cases hkk : k' = k
                · have hhk : hasAuthorKey k c = true := by
                    unfold hasAuthorKey
                    rw [hkey, hkk]
                    rw [hkk] at hck
                    simp [hck]
                  rw [if_pos hhk]
                  simp only [Option.getD_some]
                  rw [hkk, dictGet_dictInsert_self]
                  simp
                · have hhk : hasAuthorKey k c = false := by
                    unfold hasAuthorKey
                    rw [hkey]
                    simp [hkk]
                  rw [if_neg (by simp [hhk])]
                  simp only [Option.getD_some]
                  rw [dictGet_dictInsert_ne k k' (transformAuthor c.author) ad hkk]
                  simp
          · rw [if_neg hck]
            have hhk : hasAuthorKey k c = false := by
              unfold hasAuthorKey
              simp only [Bool.not_eq_true] at hck
              simp [hck]
            rw [if_neg (by simp [hhk])]
            simp

/-- Appending a key to a Python dict's key sequence: an overwrite of a
present key keeps the key sequence unchanged (the key stays at its
first-seen position); a new key is appended at the end. -/
def addFirstSeen (acc : List String) (k : String) : List String :=
  if acc.any (fun x => x == k) then acc else acc ++ [k]

/-- The truthy identity keys of a commit stream in first-seen order:
the key sequence a Python dict built by `dict[key] = value` ends up
with. -/
def firstSeenKeys (ks : List (Option String)) : List String :=
  ks.foldl
    (fun acc k? => if truthyStr k? then addFirstSeen acc (k?.getD "") else acc) []

/-- `dictInsert` transforms the key sequence by `addFirstSeen`: an
overwrite keeps every key at its position, a fresh key is appended. -/
theorem dictInsert_keys (k : String) (v : Person)
    (d : List (String × Person)) :
    (dictInsert k v d).map Prod.fst = addFirstSeen (d.map Prod.fst) k := by
  unfold dictInsert addFirstSeen
  have hcond : ∀ d0 : List (String × Person),
      (d0.map Prod.fst).any (fun x => x == k) = d0.any (fun p => p.1 == k) := by
    intro d0
    induction d0 with
    | nil => rfl
    | cons p rest ih => simp only [List.map_cons, List.any_cons, ih]
  by_cases hc : d.any (fun p => p.1 == k)
  · rw [if_pos hc, if_pos (by rw [hcond d]; exact hc)]
    rw [List.map_map]
    have hfun : (Prod.fst ∘ (fun p : String × Person =>
        if p.1 == k then (k, v) else p)) = Prod.fst := by
      funext p
      by_cases hp : p.1 = k
      · simp [hp]
      · simp [hp]
    rw [hfun]
  · rw [if_neg hc, if_neg (by rw [hcond d]; exact hc)]
    rw [List.map_append]
    rfl

/-- The committer dictionary's key sequence evolves by `addFirstSeen`
over the commits' committer keys. -/
theorem transformLoop_committers_keys (cs : List RawCommit) :
    ∀ (cd ad : List (String × Person)) (ts : List TCommit),
      ((transformLoop cd ad ts cs).1).map Prod.fst =
        (cs.map committerKeyOf).foldl
          (fun acc k? => if truthyStr k? then addFirstSeen acc (k?.getD "") else acc)
          (cd.map Prod.fst) := by
  induction cs with
  | nil => intro cd ad ts; rfl
  | cons c rest ih =>
      intro cd ad ts
      rw [transformLoop_cons, List.map_cons, List.foldl_cons, ih]
      by_cases hck : truthyStr (committerKeyOf c)
      · rw [if_pos hck, if_pos hck, dictInsert_keys]
      · rw [if_neg hck, if_neg hck]

/-- The author dictionary's key sequence evolves by `addFirstSeen` over
the commits' author keys. -/
theorem transformLoop_authors_keys (cs : List RawCommit) :
    ∀ (cd ad : List (String × Person)) (ts : List TCommit),
      ((transformLoop cd ad ts cs).2.1).map Prod.fst =
        (cs.map authorKeyOf).foldl
          (fun acc k? => if truthyStr k? then addFirstSeen acc (k?.getD "") else acc)
          (ad.map Prod.fst) := by
  induction cs with
  | nil => intro cd ad ts; rfl
  | cons c rest ih =>
      intro cd ad ts
      rw [transformLoop_cons, List.map_cons, List.foldl_cons, ih]
      by_cases hck : truthyStr (authorKeyOf c)
      · rw [if_pos hck, if_pos hck, dictInsert_keys]
      · rw [if_neg hck, if_neg hck]

/-- If the dictionary has an entry, its value appears in `dictValues`. -/
theorem dictGet_mem_values (d : List (String × Person)) (k : String)
    (p : Person) (h : dictGet d k = some p) : p ∈ dictValues d := by
  unfold dictGet at h
  unfold dictValues
  cases hf : d.find? (fun q => q.1 == k) with
  | none => rw [hf] at h; exact absurd h (by simp)
  | some q =>
      rw [hf] at h
      have hq : q.2 = p := by
        have := h
        simpa using this
      have hmem := List.mem_of_find?_eq_some hf
      exact hq ▸ List.mem_map.mpr ⟨q, hmem, rfl⟩

/-- Every transformed commit emitted by the loop has a truthy `sha` and a
present `committed_at` (given the accumulator already does). -/
theorem transformLoop_commits_valid (cs : List RawCommit) :
    ∀ (cd ad : List (String × Person)) (ts : List TCommit),
      (∀ t ∈ ts, truthyStr t.sha = true ∧ t.committed_at.isSome = true) →
      ∀ t ∈ (transformLoop cd ad ts cs).2.2,
        truthyStr t.sha = true ∧ t.committed_at.isSome = true := by
  induction cs with
  | nil => intro cd ad ts hts t ht; exact hts t ht
  | cons c rest ih =>
      intro cd ad ts hts t ht
      rw [transformLoop_cons] at ht
      refine ih _ _ _ ?_ t ht
      intro u hu
      cases htc : transformCommit c (committerKeyOf c) (authorKeyOf c) with
      | none => rw [htc] at hu; exact hts u hu
      | some t0 =>
          rw [htc] at hu
          rcases List.mem_append.mp hu with h1 | h2
          · exact hts u h1
          · have hu0 : u = t0 := by simpa using h2
            unfold transformCommit at htc
            by_cases hv : (!truthyStr c.sha || !c.committed_at.isSome) = true
            · rw [if_pos hv] at htc; exact absurd htc (by simp)
            · rw [if_neg hv] at htc
              simp only [Bool.or_eq_true, Bool.not_eq_true'] at hv
              push_neg at hv
              have ht0 : t0 = { sha := c.sha
                                message := c.message
                                committed_at := c.committed_at
                                authored_at := c.authored_at
                                committer_key := committerKeyOf c
                                author_key := authorKeyOf c } :=
                (Option.some.inj htc).symm
              rw [hu0, ht0]
              refine ⟨?_, ?_⟩
              · have : truthyStr c.sha ≠ false := hv.1
                simpa using this
              · have : c.committed_at.isSome ≠ false := hv.2
                cases hcc : c.committed_at.isSome with
                | true => rfl
                | false => exact absurd hcc this

/-! ## Loader (src/load.py) and the store schema (src/db/models.py) -/

/-- A row of the `repositories` table. `name`, `owner`, `full_name`, and
`url` are NOT NULL columns; `full_name` is UNIQUE. -/
structure RepoRow where
  id : Nat
  name : String
  owner : String
  full_name : String
  description : Option String
  url : String
  created_at : Option Nat
  deriving DecidableEq, Repr

/-- A row of the `committers` or `authors` table (structurally identical;
`login` is UNIQUE, all non-id columns nullable). -/
structure PersonRow where
  id : Nat
  login : Option String
  name : Option String
  email : Option String
  avatar_url : Option String
  deriving DecidableEq, Repr

/-- A row of the `commits` table. `sha` (UNIQUE), `committed_at`, and the
three foreign keys are NOT NULL. -/
structure CommitRow where
  id : Nat
  sha : String
  message : Option String
  committed_at : Nat
  authored_at : Option Nat
  repository_id : Nat
  committer_id : Nat
  author_id : Nat
  deriving DecidableEq, Repr

/-- The SQLite store: four append-only tables. Row ids are assigned as
`table.length + 1`, matching SQLite's rowid allocation for tables that
are only ever appended to. `SELECT ... .first()` is `List.find?` in
insertion order. -/
structure Store where
  repos : List RepoRow
  committers : List PersonRow
  authors : List PersonRow
  commits : List CommitRow
  deriving DecidableEq, Repr

/-- The freshly-created database (`Base.metadata.create_all` on a new
file). -/
def emptyStore : Store :=
  { repos := [], committers := [], authors := [], commits := [] }

/-- `GitHubLoader._load_repository` acting on the `repositories` table.
Returns the (possibly extended) table and the resolved repository row id,
`none` when `repository_data` is Python-falsy (the `return None` path).
`Except.error` models the IntegrityError raised at flush when a NOT NULL
column (`name`/`owner`/`full_name`/`url`) is `None`. SQL `full_name ==
NULL` matches no row, hence the `some row.full_name == r.full_name`
comparison. -/
def loadRepository (repos : List RepoRow) (repository_data : Option RepoData) :
    Except Unit (List RepoRow × Option Nat) :=
  match repository_data with
  | none => .ok (repos, none)
  | some r =>
      match repos.find? (fun row => some row.full_name == r.full_name) with
      | some row => .ok (repos, some row.id)
      | none =>
          match r.name, r.owner, r.full_name, r.url with
          | some nm, some ow, some fn, some u =>
              .ok (repos ++ [{ id := repos.length + 1
                               name := nm
                               owner := ow
                               full_name := fn
                               description := r.description
                               url := u
                               created_at := r.created_at }],
                   some (repos.length + 1))
          | _, _, _, _ => .error ()

/-- One iteration of the loop in `GitHubLoader._load_committers` /
`_load_authors` (the two functions are line-for-line identical). Returns
the updated table and the `(key, row id)` the record resolved to (`none`
when skipped for having neither login nor email). The lookup is by
`login` when `login` is truthy, else by `email`. `Except.error` models
the UNIQUE(login) IntegrityError raised at flush: it can fire only when
inserting a non-NULL login that the lookup did not test for, i.e. the
Python value `""` (falsy but not NULL). -/
def loadOnePerson (table : List PersonRow) (p : Person) :
    Except Unit (List PersonRow × Option (String × Nat)) :=
  if !truthyStr p.login && !truthyStr p.email then .ok (table, none)
  else
    match pyOr p.login p.email with
    | none => .ok (table, none)
    | some k =>
        match (if truthyStr p.login then table.find? (fun r => r.login == some k)
               else table.find? (fun r => r.email == some k)) with
        | some r => .ok (table, some (k, r.id))
        | none =>
            if p.login.isSome && table.any (fun r => r.login == p.login) then
              .error ()
            else
              .ok (table ++ [{ id := table.length + 1
                               login := p.login
                               name := p.name
                               email := p.email
                               avatar_url := p.avatar_url }],
                   some (k, table.length + 1))

/-- The whole loop of `_load_committers` / `_load_authors`, threading the
table and the `identity key -> stored person id` map (a later assignment
to the same key shadows the earlier one, as in a Python dict). -/
def loadPersonsGo (table : List PersonRow) (pmap : List (String × Nat)) :
    List Person → Except Unit (List PersonRow × List (String × Nat))
  | [] => .ok (table, pmap)
  | p :: rest =>
      match loadOnePerson table p with
      | .error e => .error e
      | .ok (t, none) => loadPersonsGo t pmap rest
      | .ok (t, some (k, i)) => loadPersonsGo t ((k, i) :: pmap) rest

/-- Python `map.get(key)` on the per-role identity map. -/
def pmapGet (m : List (String × Nat)) (k : String) : Option Nat :=
  (m.find? (fun e => e.1 == k)).map (fun e => e.2)

/-- The `for commit_data in commits_data` loop of
`GitHubLoader._load_commits`. The `pop("committer_key")` mutation of the
batch dicts is unobservable within a run (each dict is visited once) and
is not modelled; `Except.error` models the NOT NULL IntegrityError on a
`None` `committed_at`, surfaced at the next flush or at commit — either
way `load_data` then rolls back, which is what the model's error path
produces. The periodic `session.flush()` every 100 inserts has no
observable effect in this model. -/
def loadCommitsGo (commitsTable : List CommitRow) (repoId : Nat)
    (cmap amap : List (String × Nat)) :
    List TCommit → Except Unit (List CommitRow)
  | [] => .ok commitsTable
  | c :: rest =>
      if !truthyStr c.sha then loadCommitsGo commitsTable repoId cmap amap rest
      else
        if commitsTable.any (fun r => r.sha == c.sha.getD "") then
          loadCommitsGo commitsTable repoId cmap amap rest
        else
          match c.committer_key.bind (fun k => pmapGet cmap k) with
          | none => loadCommitsGo commitsTable repoId cmap amap rest
          | some committerId =>
              match c.author_key.bind (fun k => pmapGet amap k) with
              | none => loadCommitsGo commitsTable repoId cmap amap rest
              | some authorId =>
                  match c.committed_at with
                  | none => .error ()
                  | some ca =>
                      loadCommitsGo
                        (commitsTable ++ [{ id := commitsTable.length + 1
                                            sha := c.sha.getD ""
                                            message := c.message
                                            committed_at := ca
                                            authored_at := c.authored_at
                                            repository_id := repoId
                                            committer_id := committerId
                                            author_id := authorId }])
                        repoId cmap amap rest

/-- `GitHubLoader.load_data`. On a modelled exception the `except` handler
returns `False` and the `with Session` block closes without `commit()`,
rolling the transaction back: the store is returned unchanged. The
`return False` on missing repository data likewise commits nothing. -/
def load_data (s : Store) (repository_data : Option RepoData)
    (committers_data authors_data : List Person)
    (commits_data : List TCommit) : Bool × Store :=
  match loadRepository s.repos repository_data with
  | .error _ => (false, s)
  | .ok (_, none) => (false, s)
  | .ok (rtab, some rid) =>
      match loadPersonsGo s.committers [] committers_data with
      | .error _ => (false, s)
      | .ok (ctab, cmap) =>
          match loadPersonsGo s.authors [] authors_data with
          | .error _ => (false, s)
          | .ok (atab, amap) =>
              match loadCommitsGo s.commits rid cmap amap commits_data with
              | .error _ => (false, s)
              | .ok mtab =>
                  (true, { repos := rtab, committers := ctab,
                           authors := atab, commits := mtab })

/-! ## Extractor (src/extract.py) -/

/-- A GitHub user object (`commit_data["committer"]` / `["author"]`),
which may be JSON null (`none`). -/
structure GHUser where
  login : Option String
  avatar_url : Option String
  deriving DecidableEq, Repr

/-- A git signature (`commit_data["commit"]["committer"]` / `["author"]`).
The `date` field models the raw string as seen by `parser.parse`:
`none` = absent or empty (falsy, never parsed), `some none` = present but
unparseable (`parser.parse` raises), `some (some t)` = parses to epoch
`t`. -/
structure GitSig where
  name : Option String
  email : Option String
  date : Option (Option Nat)
  deriving DecidableEq, Repr

/-- A raw commit object from the GitHub API as read by
`GitHubExtractor._process_commit`. -/
structure GHCommit where
  sha : Option String
  message : Option String
  committer : Option GHUser
  author : Option GHUser
  gitCommitter : GitSig
  gitAuthor : GitSig
  deriving DecidableEq, Repr

/-- `GitHubExtractor._process_commit`. A date string that `parser.parse`
rejects raises inside the `try`, so the whole commit is dropped
(`None`); a falsy (absent) date is simply mapped to `None` without
parsing. -/
def processCommit (c : GHCommit) : Option RawCommit :=
  let committer : RawPerson :=
    { login := c.committer.bind (fun u => u.login)
      name := c.gitCommitter.name
      email := c.gitCommitter.email
      avatar_url := c.committer.bind (fun u => u.avatar_url) }
  let author : RawPerson :=
    { login := c.author.bind (fun u => u.login)
      name := c.gitAuthor.name
      email := c.gitAuthor.email
      avatar_url := c.author.bind (fun u => u.avatar_url) }
  match c.gitCommitter.date, c.gitAuthor.date with
  | some none, _ => none
  | _, some none => none
  | cdate, adate =>
      some { sha := c.sha
             message := c.message
             committed_at := cdate.bind id
             authored_at := adate.bind id
             committer := committer
             author := author }

/-- The `while True` loop of `GitHubExtractor.get_commits`. The remote is
modelled as the list of successive page responses (`per_page = 100`, page
number incremented each iteration); requesting past the scripted pages
returns no data, which like any falsy response breaks the loop. Returns
the accumulated successfully-parsed commits and the number of page
requests issued. (The `Link`-header bookkeeping only feeds the progress
bar, and the inter-page `_handle_rate_limit()` with no response argument
only sleeps 0.5 s; neither affects the result.) -/
def getCommitsLoop : List (List GHCommit) → List RawCommit × Nat
  | [] => ([], 1)
  | p :: rest =>
      if p.isEmpty then ([], 1)
      else
        let cs := p.filterMap processCommit
        if p.length < 100 then (cs, 1)
        else
          let pr := getCommitsLoop rest
          (cs ++ pr.1, pr.2 + 1)

/-- A scripted remote response to one HTTP GET in `_make_request`. -/
inductive ApiResp (α : Type) where
  | rateLimited (reset : Option Int)
  | ok (body : α)
  | httpError
  | transportError
  deriving DecidableEq, Repr

/-- `GitHubExtractor._handle_rate_limit` called with a 403 response: the
sleep duration in seconds. With an `X-RateLimit-Reset` header the wait is
`max(reset - int(time.time()), 0) + 5` (always ≥ 5 > 0, so the guarded
sleep always runs); without the header, a flat 0.5 s. -/
def handleRateLimitWait (now : ℚ) (reset : Option Int) : ℚ :=
  match reset with
  | some t => ((max (t - Int.floor now) 0 + 5 : Int) : ℚ)
  | none => (1 : ℚ) / 2

/-- `GitHubExtractor._make_request` against a scripted remote: each HTTP
GET consumes the next scripted response (an exhausted script is a
transport error: no data). On a 403 rate-limit response the code calls
`_handle_rate_limit(response)` (sleeping) and then recurses into
`_make_request` with **no retry bound**. Returns the final payload, the
total number of GETs issued, and the sleeps performed, with `now` the
wall-clock advanced by each sleep. -/
def makeRequest {α : Type} (now : ℚ) :
    List (ApiResp α) → Option α × Nat × List ℚ
  | [] => (none, 1, [])
  | .rateLimited reset :: rest =>
      let w := handleRateLimitWait now reset
      let pr := makeRequest (now + w) rest
      (pr.1, pr.2.1 + 1, w :: pr.2.2)
  | .ok body :: _ => (some body, 1, [])
  | .httpError :: _ => (none, 1, [])
  | .transportError :: _ => (none, 1, [])

/-! ## Pipeline entry points (src/main.py) -/

/-- `run_etl_pipeline`, parameterized by the store that
`get_db_engine(db_path)` opened and by what the extractor produced for
this run (`repo_info` from `get_repository_info`, `commits` from
`get_commits`); the network oracle is independent of the store. -/
def run_etl_pipeline (store : Store) (repo_info : Option RepoData)
    (commits : List RawCommit) : Bool × Store :=
  match repo_info with
  | none => (false, store)
  | some ri =>
      if commits.isEmpty then (false, store)
      else
        let tr := transform_data (some ri) commits
        load_data store tr.1 tr.2.1 tr.2.2.1 tr.2.2.2

/-- `refresh_database`: deletes the database file when it exists. The
file system is modelled as the optional store persisted at `db_path`.
(The `os.remove` failure path exits the process before any extraction or
loading; it never reaches the pipeline.) -/
def refresh_database (dbFile : Option Store) : Option Store :=
  none

/-- `main` after configuration: always `refresh_database`, then run the
pipeline; `get_db_engine` + `create_all` open the file at `db_path`,
creating the empty schema when the file is absent. The optional analysis
stage is read-only and does not affect the store. -/
def mainRun (dbFile : Option Store) (repo_info : Option RepoData)
    (commits : List RawCommit) : Bool × Store :=
  let afterRefresh := refresh_database dbFile
  let store0 := match afterRefresh with
    | none => emptyStore
    | some s => s
  run_etl_pipeline store0 repo_info commits

/-! ## Analyzer (src/analyze.py) -/

/-- `strftime('%w', t)` on a UTC epoch timestamp: day of week, Sunday = 0
(1970-01-01 was a Thursday, code 4). -/
def dowOf (t : Nat) : Nat := (t / 86400 + 4) % 7

/-- `strftime('%H', t)`: hour of day. -/
def hourOf (t : Nat) : Nat := t % 86400 / 3600

/-- The heatmap SQL aggregate: number of stored commits whose
`authored_at` falls in group `(day_of_week, hour)`. Commits with NULL
`authored_at` fall in a NULL group that the later merge onto the
0..6 × 0..23 grid drops. -/
def heatCount (ats : List (Option Nat)) (d h : Nat) : Nat :=
  ats.countP (fun a => match a with
    | some t => dowOf t == d && hourOf t == h
    | none => false)

/-- SQLite day-of-week codes in the displayed row order Mon..Sun
(`day_order` reindex). -/
def dayOrder : List Nat := [1, 2, 3, 4, 5, 6, 0]

/-- Start hours of the 8 three-hour blocks `00-03` .. `21-24`. -/
def hourBlocks : List Nat := [0, 3, 6, 9, 12, 15, 18, 21]

/-- `GitHubAnalyzer.analyze_commit_heatmap` as a function of the
`authored_at` column of all stored commits: `None` when the aggregate
query returns no rows (`df.empty`, i.e. the commits table is empty);
otherwise the 7 × 8 grid — rows Mon..Sun, columns the 3-hour blocks,
each cell the zero-filled (`fillna(0)`) sum of its three hourly
counts. -/
def analyze_commit_heatmap (ats : List (Option Nat)) :
    Option (List (List Nat)) :=
  if ats.isEmpty then none
  else
    some (dayOrder.map (fun d =>
      hourBlocks.map (fun b =>
        heatCount ats d b + heatCount ats d (b + 1) + heatCount ats d (b + 2))))

/-- The `numbered_days` CTE for one author partition: pairs each distinct
commit date with its group id `julianday(date) - ROW_NUMBER()`, rows
numbered from `n` (the CTE starts at 1). Dates are integer day numbers;
`julianday` of a date string is that number plus a constant 0.5, which
shifts every group id equally and is dropped. -/
def numbered (n : Int) : List Int → List (Int × Int)
  | [] => []
  | d :: rest => (d - n, d) :: numbered (n + 1) rest

/-- SQL `MIN` over a column (0 on the empty list, which no group
attains). -/
def listMinD : List Int → Int
  | [] => 0
  | x :: xs => xs.foldl min x

/-- SQL `MAX` over a column. -/
def listMaxD : List Int → Int
  | [] => 0
  | x :: xs => xs.foldl max x

/-- The dates of one group (`GROUP BY author_id, group_id`): the rows of
`numbered n ds` whose group id is `g`. -/
def grpOf (n : Int) (ds : List Int) (g : Int) : List Int :=
  ((numbered n ds).filter (fun p => p.1 == g)).map Prod.snd

/-- The `streaks` CTE for one author: one `(streak_start, streak_end,
streak_length)` row per distinct group id, aggregating MIN / MAX / COUNT
over that group's rows. -/
def streaksOf (ds : List Int) : List (Int × Int × Nat) :=
  (((numbered 1 ds).map Prod.fst).dedup).map (fun g =>
    (listMinD (grpOf 1 ds g), listMaxD (grpOf 1 ds g), (grpOf 1 ds g).length))

/-- The `daily_commits` CTE restricted to one author: the author's
distinct commit dates in ascending order (`GROUP BY` the dates, window
`ORDER BY commit_date`). -/
def authorDates (rows : List (Nat × Int)) (a : Nat) : List Int :=
  List.insertionSort (· ≤ ·)
    (((rows.filter (fun r => r.1 == a)).map Prod.snd).dedup)

/-- The distinct author ids appearing in the join. -/
def authorIds (rows : List (Nat × Int)) : List Nat :=
  (rows.map Prod.fst).dedup

/-- All rows of the `streaks` CTE (the window partitions by
`author_id`). -/
def allStreaks (rows : List (Nat × Int)) : List (Int × Int × Nat) :=
  (authorIds rows).flatMap (fun a => streaksOf (authorDates rows a))

/-- `ORDER BY streak_length DESC LIMIT 1`: a row of maximal
`streak_length`. The order among equal lengths is unspecified by the
SQL; the model keeps the earliest, and no theorem below depends on that
tie choice. -/
def pickLongest : List (Int × Int × Nat) → Option (Int × Int × Nat)
  | [] => none
  | x :: xs => some (xs.foldl (fun best c => if c.2.2 > best.2.2 then c else best) x)

/-- `GitHubAnalyzer.analyze_longest_author_streak` over the
commits-to-authors join, given as `(author_id, authored day number)`
pairs. Commits with NULL `authored_at` are excluded from the input: in
SQL they only contribute one NULL-group row of length 1 per author,
which cannot beat any real streak. -/
def analyze_longest_author_streak (rows : List (Nat × Int)) :
    Option (Int × Int × Nat) :=
  pickLongest (allStreaks rows)

/-! ## C10, C9: entry-point behaviour -/

/-- C10: `run_etl_pipeline` returns failure (`False`) whenever the
extracted commit list is empty, even when repository metadata was
fetched successfully, and nothing — not even the repository row — is
loaded into the store (the store is returned unchanged). -/
theorem C10_empty_commit_list_is_failure (store : Store) (ri : RepoData) :
    run_etl_pipeline store (some ri) [] = (false, store) := rfl

/-- C9: every invocation through `main` deletes the database file before
extraction or loading, so the run's outcome is independent of whatever
store was on disk before — the pipeline always starts from the empty
store, and no repository, person, or commit row persists from one
`main` run to the next. -/
theorem C9_main_always_starts_fresh (dbA dbB : Option Store)
    (repo_info : Option RepoData) (commits : List RawCommit) :
    mainRun dbA repo_info commits = run_etl_pipeline emptyStore repo_info commits ∧
    mainRun dbA repo_info commits = mainRun dbB repo_info commits :=
  ⟨rfl, rfl⟩

/-! ## C3: rate-limit retry behaviour -/

/-- C3 counterexample: a request that is rate-limited twice in a row is
**not** treated as a hard failure after the second rejection. With the
script "403 (reset 10), 403 (reset 100), 200 ok" starting at time 0,
`_make_request` issues 3 GETs (two retries, not "exactly once"), sleeps
`max(10-0,0)+5 = 15` and then `max(100-15,0)+5 = 90` seconds, and
returns the payload — the claim requires at most 2 GETs and no data. -/
theorem C3_counterexample :
    makeRequest (α := String) 0
      [ApiResp.rateLimited (some 10), ApiResp.rateLimited (some 100),
       ApiResp.ok "payload"]
      = (some "payload", 3, [15, 90]) := by
  have h1 : handleRateLimitWait 0 (some 10) = 15 := by
    unfold handleRateLimitWait
    norm_num
  have h2 : handleRateLimitWait (0 + 15) (some 100) = 90 := by
    unfold handleRateLimitWait
    norm_num
  simp only [makeRequest, h1, h2]

/-- C3 (amended): on every rate-limit rejection with a reset header the
extractor blocks for `max(reset − now, 0) + 5` seconds (0.5 s when the
header is missing) and retries the same request, and it keeps doing so
for every consecutive rate-limit rejection **without bound** — there is
no single-retry cutoff, and the first non-rate-limited response's
payload is returned. -/
theorem C3_amended_unbounded_retry {α : Type} (p : α) (now : ℚ) (k : Nat) :
    makeRequest now (List.replicate k (ApiResp.rateLimited none) ++ [ApiResp.ok p])
      = (some p, k + 1, List.replicate k ((1 : ℚ) / 2)) ∧
    ∀ t : Int, makeRequest now [ApiResp.rateLimited (some t), ApiResp.ok p]
      = (some p, 2, [((max (t - Int.floor now) 0 + 5 : Int) : ℚ)]) := by
  constructor
  · induction k generalizing now with
    | zero => rfl
    | succ n ih =>
        rw [List.replicate_succ, List.cons_append]
        rw [show makeRequest now (ApiResp.rateLimited none ::
              (List.replicate n (ApiResp.rateLimited none) ++ [ApiResp.ok p])) =
            ((makeRequest (now + handleRateLimitWait now none)
                (List.replicate n (ApiResp.rateLimited none) ++ [ApiResp.ok p])).1,
             (makeRequest (now + handleRateLimitWait now none)
                (List.replicate n (ApiResp.rateLimited none) ++ [ApiResp.ok p])).2.1 + 1,
             handleRateLimitWait now none ::
               (makeRequest (now + handleRateLimitWait now none)
                 (List.replicate n (ApiResp.rateLimited none) ++ [ApiResp.ok p])).2.2)
          from rfl]
        rw [ih]
        rw [show handleRateLimitWait now none = (1 : ℚ) / 2 from rfl]
        rw [List.replicate_succ]
  · intro t
    rfl

/-! ## C7: heatmap shape -/

/-- C7 counterexample: for the **empty** stored commit set the heatmap
analysis returns `None` (the `df.empty` early return), not a 7 × 8
zero-filled grid as claimed. -/
theorem C7_counterexample : analyze_commit_heatmap [] = none := rfl

/-- C7 (amended): for every **non-empty** stored commit set the heatmap
is a grid of exactly 7 day rows (Mon..Sun) by 8 three-hour blocks
(`00-03` .. `21-24`), and every bucket containing no commits holds 0.
(The empty set instead yields `None`.) -/
theorem C7_amended_nonempty_grid (ats : List (Option Nat)) (h : ats ≠ []) :
    ∃ g, analyze_commit_heatmap ats = some g ∧ g.length = 7 ∧
      (∀ row ∈ g, row.length = 8) ∧
      (∀ i j, i < 7 → j < 8 →
        (∀ t : Nat, some t ∈ ats →
          ¬(dowOf t = dayOrder.getD i 0 ∧ hourBlocks.getD j 0 ≤ hourOf t ∧
            hourOf t < hourBlocks.getD j 0 + 3)) →
        (g.getD i []).getD j 1 = 0) := by
  refine ⟨dayOrder.map (fun d => hourBlocks.map (fun b =>
    heatCount ats d b + heatCount ats d (b + 1) + heatCount ats d (b + 2))), ?_, ?_, ?_, ?_⟩
  · unfold analyze_commit_heatmap
    rw [if_neg (by simpa using h)]
  · simp [dayOrder]
  · intro row hrow
    rcases List.mem_map.mp hrow with ⟨d, _, rfl⟩
    simp [hourBlocks]
  · intro i j hi hj hempty
    have hcell : ∀ d b : Nat, d = dayOrder.getD i 0 → b = hourBlocks.getD j 0 →
        heatCount ats d b + heatCount ats d (b + 1) + heatCount ats d (b + 2) = 0 := by
      intro d b hd hb
      have hzero : ∀ r : Nat, r < 3 → heatCount ats d (b + r) = 0 := by
        intro r hr
        unfold heatCount
        rw [List.countP_eq_zero]
        intro a ha
        cases a with
        | none => simp
        | some t =>
            simp only [Bool.and_eq_true, beq_iff_eq, not_and]
            intro hdow hhour
            exact hempty t ha ⟨by rw [← hd, hdow], by omega, by omega⟩
      have h0 := hzero 0 (by omega)
      have h1 := hzero 1 (by omega)
      have h2 := hzero 2 (by omega)
      simp only [Nat.add_zero] at h0
      omega
    -- reduce the grid access to the cell formula
    interval_cases i <;> interval_cases j <;>
      simp only [dayOrder, hourBlocks, List.getD, List.map_cons, List.get?] <;>
      exact hcell _ _ rfl rfl

/-- Witness for `C7_amended_nonempty_grid` at the one-commit input
`[some 0]` (epoch 0: Thursday 00:xx). -/
theorem C7_amended_nonempty_grid_witness :
    ∃ g, analyze_commit_heatmap [some 0] = some g ∧ g.length = 7 ∧
      (∀ row ∈ g, row.length = 8) ∧
      (∀ i j, i < 7 → j < 8 →
        (∀ t : Nat, some t ∈ [some 0] →
          ¬(dowOf t = dayOrder.getD i 0 ∧ hourBlocks.getD j 0 ≤ hourOf t ∧
            hourOf t < hourBlocks.getD j 0 + 3)) →
        (g.getD i []).getD j 1 = 0) :=
  C7_amended_nonempty_grid [some 0] (by decide)

/-! ## C5: pagination termination -/

/-- C5: for a remote whose pages all contain exactly 100 commits except a
final short page, `get_commits` returns exactly the concatenation of the
successfully parsed commits of all pages in page order, and issues
exactly one request per page — none beyond the short page. -/
theorem C5_pagination_exact (pages front : List (List GHCommit))
    (lastPage : List GHCommit) (hp : pages = front ++ [lastPage])
    (hfront : ∀ p ∈ front, p.length = 100) (hlast : lastPage.length < 100) :
    getCommitsLoop pages =
      ((pages.map (fun p => p.filterMap processCommit)).flatten, pages.length) := by
  subst hp
  induction front with
  | nil =>
      by_cases he : lastPage.isEmpty
      · have : lastPage = [] := List.isEmpty_iff.mp he
        subst this
        simp [getCommitsLoop]
      · simp [getCommitsLoop, he, if_pos hlast]
  | cons p front ih =>
      have hp100 : p.length = 100 := hfront p (List.mem_cons_self p front)
      have hne : p.isEmpty = false := by
        cases p with
        | nil => simp at hp100
        | cons a l => rfl
      have hnotshort : ¬(p.length < 100) := by omega
      have ihx := ih (fun q hq => hfront q (List.mem_cons_of_mem p hq))
      rw [List.cons_append]
      rw [show getCommitsLoop (p :: (front ++ [lastPage])) =
          if p.isEmpty then ([], 1)
          else if p.length < 100 then (p.filterMap processCommit, 1)
          else (p.filterMap processCommit ++ (getCommitsLoop (front ++ [lastPage])).1,
                (getCommitsLoop (front ++ [lastPage])).2 + 1)
        from rfl]
      rw [if_neg (by simp [hne]), if_neg hnotshort, ihx]
      simp [List.length_append]

/-- A sample raw commit for the full page of the C5 witness. -/
def c5FullCommit : GHCommit :=
  { sha := some "a", message := none, committer := none, author := none,
    gitCommitter := { name := none, email := none, date := none },
    gitAuthor := { name := none, email := none, date := none } }

/-- A sample raw commit for the short page of the C5 witness. -/
def c5ShortCommit : GHCommit :=
  { sha := some "b", message := none, committer := none, author := none,
    gitCommitter := { name := none, email := none, date := none },
    gitAuthor := { name := none, email := none, date := none } }

/-- Witness for `C5_pagination_exact`: one full page of 100 copies of a
trivial raw commit followed by a one-commit short page — two requests,
both pages concatenated. -/
theorem C5_pagination_exact_witness :
    getCommitsLoop [List.replicate 100 c5FullCommit, [c5ShortCommit]] =
      (([List.replicate 100 c5FullCommit, [c5ShortCommit]].map
          (fun p => p.filterMap processCommit)).flatten, 2) :=
  C5_pagination_exact [List.replicate 100 c5FullCommit, [c5ShortCommit]]
    [List.replicate 100 c5FullCommit] [c5ShortCommit] rfl
    (by
      intro p hp
      rcases List.mem_singleton.mp hp with rfl
      simp)
    (by
      rw [List.length_singleton]
      omega)

/-! ## C2: person deduplication -/

/-- First raw commit of the C2 counterexample: committer key `alice`,
name `First`. -/
def c2First : RawCommit :=
  { sha := some "s1", message := none, committed_at := some 1,
    authored_at := none,
    committer := { login := some "alice", name := some "First",
                   email := none, avatar_url := none },
    author := { login := none, name := none, email := none,
                avatar_url := none } }

/-- Second raw commit of the C2 counterexample: same committer key
`alice`, different `name` and `email` fields. -/
def c2Second : RawCommit :=
  { sha := some "s2", message := none, committed_at := some 2,
    authored_at := none,
    committer := { login := some "alice", name := some "Second",
                   email := some "alice@example.com", avatar_url := none },
    author := { login := none, name := none, email := none,
                avatar_url := none } }

/-- C2 counterexample: two committer sub-records share the key `alice`
but the emitted person set keeps the **second** record's fields (`name =
"Second"`, `email = some ...`), and no emitted person carries the
first-seen record's `name` — refuting "the first-seen record's fields
are the ones kept; later occurrences never replace any field". -/
theorem C2_counterexample :
    (transform_data none [c2First, c2Second]).2.1 =
      [{ login := some "alice", name := some "Second",
         email := some "alice@example.com", avatar_url := none }] ∧
    ∀ p ∈ (transform_data none [c2First, c2Second]).2.1,
      p.name ≠ some "First" := by
  constructor
  · rfl
  · decide

/-- C2 (amended): when several person sub-records — committer **or**
author — share an identity key, the **last**-seen record's normalized
fields are the ones kept: for each role, the dictionary's entry at any
key `k` equals the normalized sub-record of the last raw commit whose
committer (resp. author) has key `k`, the emitted person list of that
role is exactly that dictionary's values, each kept entry appears in
the emitted list, and the dictionary's key sequence is the truthy keys
in first-seen order (an overwrite keeps the key at its first-seen
insertion position, `addFirstSeen`/`firstSeenKeys`). -/
theorem C2_amended_last_seen_wins (ri : Option RepoData)
    (cs : List RawCommit) (k : String) :
    (dictGet (committersDictOf cs) k = lastCommitterWith k cs ∧
     (transform_data ri cs).2.1 = dictValues (committersDictOf cs) ∧
     (∀ p, dictGet (committersDictOf cs) k = some p →
       p ∈ (transform_data ri cs).2.1)) ∧
    (dictGet (authorsDictOf cs) k = lastAuthorWith k cs ∧
     (transform_data ri cs).2.2.1 = dictValues (authorsDictOf cs) ∧
     (∀ p, dictGet (authorsDictOf cs) k = some p →
       p ∈ (transform_data ri cs).2.2.1)) ∧
    (committersDictOf cs).map Prod.fst = firstSeenKeys (cs.map committerKeyOf) ∧
    (authorsDictOf cs).map Prod.fst = firstSeenKeys (cs.map authorKeyOf) := by
  refine ⟨⟨?_, rfl, ?_⟩, ⟨?_, rfl, ?_⟩, ?_, ?_⟩
  · have h := transformLoop_committers_last cs [] [] [] k
    unfold committersDictOf
    rw [h]
    rw [show dictGet [] k = none from rfl, Option.or_none]
  · intro p hp
    have h2 : (transform_data ri cs).2.1 = dictValues (committersDictOf cs) := rfl
    rw [h2]
    exact dictGet_mem_values _ _ _ hp
  · have h := transformLoop_authors_last cs [] [] [] k
    unfold authorsDictOf
    rw [h]
    rw [show dictGet [] k = none from rfl, Option.or_none]
  · intro p hp
    have h2 : (transform_data ri cs).2.2.1 = dictValues (authorsDictOf cs) := rfl
    rw [h2]
    exact dictGet_mem_values _ _ _ hp
  · exact transformLoop_committers_keys cs [] [] []
  · exact transformLoop_authors_keys cs [] [] []

/-! ## C4: commit validity -/

/-- A truthy optional string is `some` of its `getD ""`. -/
theorem truthy_eq_some_getD (o : Option String) (h : truthyStr o = true) :
    o = some (o.getD "") := by
  cases o with
  | none => simp [truthyStr] at h
  | some s => rfl

/-- Provenance of commit rows: each row in the output of the
`_load_commits` loop was already in the table or stems from a batch
entry whose `sha` and `committed_at` it carries. -/
theorem loadCommitsGo_mem (ts : List TCommit) :
    ∀ (ctab : List CommitRow) (rid : Nat) (cmap amap : List (String × Nat))
      (mtab : List CommitRow),
      loadCommitsGo ctab rid cmap amap ts = .ok mtab →
      ∀ row ∈ mtab, row ∈ ctab ∨
        ∃ t ∈ ts, t.sha = some row.sha ∧ t.committed_at = some row.committed_at := by
  induction ts with
  | nil =>
      intro ctab rid cmap amap mtab h row hrow
      have : ctab = mtab := by
        simpa [loadCommitsGo] using h
      exact Or.inl (this ▸ hrow)
  | cons c rest ih =>
      intro ctab rid cmap amap mtab h row hrow
      have hlift : (row ∈ ctab ∨
          ∃ t ∈ rest, t.sha = some row.sha ∧ t.committed_at = some row.committed_at) →
          (row ∈ ctab ∨
          ∃ t ∈ c :: rest, t.sha = some row.sha ∧ t.committed_at = some row.committed_at) := by
        intro hx
        rcases hx with hl | ⟨t, ht, hts⟩
        · exact Or.inl hl
        · exact Or.inr ⟨t, List.mem_cons_of_mem c ht, hts⟩
      unfold loadCommitsGo at h
      by_cases h1 : truthyStr c.sha
      · rw [if_neg (by simp [h1])] at h
        by_cases h2 : ctab.any (fun r => r.sha == c.sha.getD "")
        · rw [if_pos h2] at h
          rcases ih ctab rid cmap amap mtab h row hrow with hl | hr
          · exact Or.inl hl
          · exact hlift (Or.inr hr)
        · rw [if_neg h2] at h
          cases hck : c.committer_key.bind (fun k => pmapGet cmap k) with
          | none =>
              rw [hck] at h
              rcases ih ctab rid cmap amap mtab h row hrow with hl | hr
              · exact Or.inl hl
              · exact hlift (Or.inr hr)
          | some committerId =>
              rw [hck] at h
              cases hak : c.author_key.bind (fun k => pmapGet amap k) with
              | none =>
                  rw [hak] at h
                  rcases ih ctab rid cmap amap mtab h row hrow with hl | hr
                  · exact Or.inl hl
                  · exact hlift (Or.inr hr)
              | some authorId =>
                  rw [hak] at h
                  cases hca : c.committed_at with
                  | none => rw [hca] at h; exact absurd h (by simp)
                  | some ca =>
                      rw [hca] at h
                      rcases ih _ rid cmap amap mtab h row hrow with hl | hr
                      · rcases List.mem_append.mp hl with hl1 | hl2
                        · exact Or.inl hl1
                        · have hrownew := List.mem_singleton.mp hl2
                          refine Or.inr ⟨c, List.mem_cons_self c rest, ?_, ?_⟩
                          · rw [hrownew]
                            exact truthy_eq_some_getD c.sha h1
                          · rw [hrownew, hca]
                      · exact hlift (Or.inr hr)
      · rw [if_pos (by simp [Bool.not_eq_true] at h1; simp [h1])] at h
        rcases ih ctab rid cmap amap mtab h row hrow with hl | hr
        · exact Or.inl hl
        · exact hlift (Or.inr hr)

/-- Provenance at the `load_data` level: any commit row present after a
load was already stored, or stems from a batch entry carrying its `sha`
and `committed_at`. -/
theorem load_data_commits_mem (s : Store) (rd : Option RepoData)
    (cds ads : List Person) (ts : List TCommit) :
    ∀ row ∈ (load_data s rd cds ads ts).2.commits, row ∈ s.commits ∨
      ∃ t ∈ ts, t.sha = some row.sha ∧ t.committed_at = some row.committed_at := by
  intro row hrow
  unfold load_data at hrow
  cases hrep : loadRepository s.repos rd with
  | error e => rw [hrep] at hrow; exact Or.inl hrow
  | ok pr =>
      rw [hrep] at hrow
      rcases pr with ⟨rtab, rid?⟩
      cases rid? with
      | none => exact Or.inl hrow
      | some rid =>
          cases hcs : loadPersonsGo s.committers [] cds with
          | error e => rw [hcs] at hrow; exact Or.inl hrow
          | ok prc =>
              rcases prc with ⟨ctab, cmap⟩
              rw [hcs] at hrow
              cases has_ : loadPersonsGo s.authors [] ads with
              | error e => rw [has_] at hrow; exact Or.inl hrow
              | ok pra =>
                  rcases pra with ⟨atab, amap⟩
                  rw [has_] at hrow
                  dsimp only at hrow
                  cases hm : loadCommitsGo s.commits rid cmap amap ts with
                  | error e => rw [hm] at hrow; exact Or.inl hrow
                  | ok mtab =>
                      rw [hm] at hrow
                      exact loadCommitsGo_mem ts s.commits rid cmap amap mtab hm row hrow

/-- C4: under any input ordering, a raw commit missing `sha` or
`committed_at` never appears in the transformer's output commit
sequence — every emitted transformed commit has a truthy `sha` and a
present `committed_at` — and never appears as a stored commit row:
every commit row after loading the transformed batch either predates
the load or carries the (present) `sha` and `committed_at` of an
emitted transformed commit. -/
theorem C4_invalid_commits_never_stored (ri : Option RepoData)
    (cs : List RawCommit) (s : Store) :
    (∀ t ∈ (transform_data ri cs).2.2.2,
      truthyStr t.sha = true ∧ t.committed_at.isSome = true) ∧
    (∀ row ∈ (load_data s (transform_data ri cs).1 (transform_data ri cs).2.1
        (transform_data ri cs).2.2.1 (transform_data ri cs).2.2.2).2.commits,
      row ∈ s.commits ∨
        ∃ t ∈ (transform_data ri cs).2.2.2,
          t.sha = some row.sha ∧ t.committed_at = some row.committed_at) := by
  constructor
  · have h := transformLoop_commits_valid cs [] [] [] (by intro t ht; simp at ht)
    intro t ht
    exact h t ht
  · exact load_data_commits_mem s _ _ _ _

/-! ## C1: idempotent load — replay lemmas -/

theorem okPair_inj {α β : Type} {a c : α} {b d : β}
    (h : (Except.ok (a, b) : Except Unit (α × β)) = .ok (c, d)) :
    a = c ∧ b = d := by
  injection h with h1
  exact ⟨congrArg Prod.fst h1, congrArg Prod.snd h1⟩

/-- `loadOnePerson` only appends to the table. -/
theorem loadOnePerson_append (table : List PersonRow) (p : Person)
    (t : List PersonRow) (res : Option (String × Nat))
    (h : loadOnePerson table p = .ok (t, res)) : ∃ d, t = table ++ d := by
  unfold loadOnePerson at h
  split at h
  · exact ⟨[], by rw [← (okPair_inj h).1]; simp⟩
  · split at h
    · exact ⟨[], by rw [← (okPair_inj h).1]; simp⟩
    · split at h
      · exact ⟨[], by rw [← (okPair_inj h).1]; simp⟩
      · split at h
        · exact absurd h (by simp)
        · exact ⟨_, ((okPair_inj h).1).symm⟩

/-- `loadPersonsGo` only appends to the table. -/
theorem loadPersonsGo_append (ps : List Person) :
    ∀ (table : List PersonRow) (pmap : List (String × Nat))
      (t : List PersonRow) (pm : List (String × Nat)),
      loadPersonsGo table pmap ps = .ok (t, pm) → ∃ d, t = table ++ d := by
  induction ps with
  | nil =>
      intro table pmap t pm h
      have h' : (Except.ok (table, pmap) : Except Unit (List PersonRow × List (String × Nat)))
          = .ok (t, pm) := by
        simpa [loadPersonsGo] using h
      exact ⟨[], by rw [← (okPair_inj h').1]; simp⟩
  | cons p rest ih =>
      intro table pmap t pm h
      unfold loadPersonsGo at h
      cases hop : loadOnePerson table p with
      | error e => rw [hop] at h; exact absurd h (by simp)
      | ok pr =>
          rcases pr with ⟨t1, res⟩
          rw [hop] at h
          obtain ⟨d1, hd1⟩ := loadOnePerson_append table p t1 res hop
          cases res with
          | none =>
              obtain ⟨d2, hd2⟩ := ih t1 pmap t pm h
              exact ⟨d1 ++ d2, by rw [hd2, hd1, List.append_assoc]⟩
          | some ki =>
              obtain ⟨d2, hd2⟩ := ih t1 ((ki.1, ki.2) :: pmap) t pm h
              exact ⟨d1 ++ d2, by rw [hd2, hd1, List.append_assoc]⟩

/-- Replaying a skipped person record (no login, no email) skips again on
any table. -/
theorem loadOnePerson_skip (table : List PersonRow) (p : Person)
    (t : List PersonRow) (h : loadOnePerson table p = .ok (t, none)) :
    t = table ∧ ∀ t' : List PersonRow, loadOnePerson t' p = .ok (t', none) := by
  unfold loadOnePerson at h
  split at h
  · rename_i hg
    refine ⟨((okPair_inj h).1).symm, ?_⟩
    intro t'
    unfold loadOnePerson
    rw [if_pos hg]
  · rename_i hg
    split at h
    · rename_i hpy
      refine ⟨((okPair_inj h).1).symm, ?_⟩
      intro t'
      unfold loadOnePerson
      rw [if_neg hg, hpy]
    · split at h
      · exact absurd ((okPair_inj h).2) (by simp)
      · split at h
        · exact absurd h (by simp)
        · exact absurd ((okPair_inj h).2) (by simp)

/-- Replaying a resolved person record on any append-extension of the
resulting table resolves to the same row id without inserting. -/
theorem loadOnePerson_replay (table : List PersonRow) (p : Person)
    (t : List PersonRow) (k : String) (i : Nat)
    (h : loadOnePerson table p = .ok (t, some (k, i))) :
    ∀ d : List PersonRow, loadOnePerson (t ++ d) p = .ok (t ++ d, some (k, i)) := by
  intro d
  unfold loadOnePerson at h ⊢
  split at h
  · exact absurd ((okPair_inj h).2) (by simp)
  · rename_i hg
    rw [if_neg hg]
    split at h
    · exact absurd ((okPair_inj h).2) (by simp)
    · rename_i k0 hpy
      by_cases hlf : truthyStr p.login
      · rw [if_pos hlf] at h ⊢
        have hplogin : p.login = some k0 := by
          rw [← hpy]
          unfold pyOr
          rw [if_pos hlf]
        cases hfind : table.find? (fun r => r.login == some k0) with
        | some r =>
            rw [hfind] at h
            obtain ⟨h1, h2⟩ := okPair_inj h
            have h2' := Option.some.inj h2
            have hk : k0 = k := congrArg Prod.fst h2'
            have hi : r.id = i := congrArg Prod.snd h2'
            subst h1
            rw [List.find?_append, hfind]
            subst hk
            subst hi
            rfl
        | none =>
            rw [hfind] at h
            dsimp only at h
            split at h
            · exact absurd h (by simp)
            · obtain ⟨h1, h2⟩ := okPair_inj h
              have h2' := Option.some.inj h2
              have hk : k0 = k := congrArg Prod.fst h2'
              have hi : table.length + 1 = i := congrArg Prod.snd h2'
              rw [← h1, List.append_assoc, List.find?_append, hfind, Option.none_or]
              have hfx : (({ id := table.length + 1
                             login := p.login
                             name := p.name
                             email := p.email
                             avatar_url := p.avatar_url } : PersonRow) :: d).find?
                    (fun r => r.login == some k0) =
                  some { id := table.length + 1
                         login := p.login
                         name := p.name
                         email := p.email
                         avatar_url := p.avatar_url } := by
                simp [List.find?, hplogin]
              rw [show ([{ id := table.length + 1
                           login := p.login
                           name := p.name
                           email := p.email
                           avatar_url := p.avatar_url }] : List PersonRow) ++ d =
                  ({ id := table.length + 1
                     login := p.login
                     name := p.name
                     email := p.email
                     avatar_url := p.avatar_url } : PersonRow) :: d from rfl, hfx]
              subst hk
              subst hi
              rfl
      · rw [if_neg hlf] at h ⊢
        have hpemail : p.email = some k0 := by
          rw [← hpy]
          unfold pyOr
          rw [if_neg hlf]
        cases hfind : table.find? (fun r => r.email == some k0) with
        | some r =>
            rw [hfind] at h
            obtain ⟨h1, h2⟩ := okPair_inj h
            have h2' := Option.some.inj h2
            have hk : k0 = k := congrArg Prod.fst h2'
            have hi : r.id = i := congrArg Prod.snd h2'
            subst h1
            rw [List.find?_append, hfind]
            subst hk
            subst hi
            rfl
        | none =>
            rw [hfind] at h
            dsimp only at h
            split at h
            · exact absurd h (by simp)
            · obtain ⟨h1, h2⟩ := okPair_inj h
              have h2' := Option.some.inj h2
              have hk : k0 = k := congrArg Prod.fst h2'
              have hi : table.length + 1 = i := congrArg Prod.snd h2'
              rw [← h1, List.append_assoc, List.find?_append, hfind, Option.none_or]
              have hfx : (({ id := table.length + 1
                             login := p.login
                             name := p.name
                             email := p.email
                             avatar_url := p.avatar_url } : PersonRow) :: d).find?
                    (fun r => r.email == some k0) =
                  some { id := table.length + 1
                         login := p.login
                         name := p.name
                         email := p.email
                         avatar_url := p.avatar_url } := by
                simp [List.find?, hpemail]
              rw [show ([{ id := table.length + 1
                           login := p.login
                           name := p.name
                           email := p.email
                           avatar_url := p.avatar_url }] : List PersonRow) ++ d =
                  ({ id := table.length + 1
                     login := p.login
                     name := p.name
                     email := p.email
                     avatar_url := p.avatar_url } : PersonRow) :: d from rfl, hfx]
              subst hk
              subst hi
              rfl

/-- Replaying a whole person batch on its own output table reproduces the
same table and the same identity map: nothing is inserted the second
time, and every key resolves to the same row id. -/
theorem loadPersonsGo_replay (ps : List Person) :
    ∀ (table : List PersonRow) (pmap : List (String × Nat))
      (t : List PersonRow) (pm : List (String × Nat)),
      loadPersonsGo table pmap ps = .ok (t, pm) →
      loadPersonsGo t pmap ps = .ok (t, pm) := by
  induction ps with
  | nil =>
      intro table pmap t pm h
      have h' : (Except.ok (table, pmap)
          : Except Unit (List PersonRow × List (String × Nat))) = .ok (t, pm) := by
        simpa [loadPersonsGo] using h
      obtain ⟨h1, h2⟩ := okPair_inj h'
      rw [← h1, ← h2]
      rfl
  | cons p rest ih =>
      intro table pmap t pm h
      unfold loadPersonsGo at h
      cases hop : loadOnePerson table p with
      | error e => rw [hop] at h; exact absurd h (by simp)
      | ok pr =>
          rcases pr with ⟨t1, res⟩
          rw [hop] at h
          cases res with
          | none =>
              obtain ⟨heq, hrep⟩ := loadOnePerson_skip table p t1 hop
              have ihx := ih t1 pmap t pm h
              show loadPersonsGo t pmap (p :: rest) = .ok (t, pm)
              unfold loadPersonsGo
              rw [hrep t]
              exact ihx
          | some ki =>
              rcases ki with ⟨k, i⟩
              obtain ⟨dd, hdd⟩ := loadPersonsGo_append rest t1 ((k, i) :: pmap) t pm h
              have hrep := loadOnePerson_replay table p t1 k i hop dd
              have ihx := ih t1 ((k, i) :: pmap) t pm h
              show loadPersonsGo t pmap (p :: rest) = .ok (t, pm)
              unfold loadPersonsGo
              rw [← hdd] at hrep
              rw [hrep]
              exact ihx

/-- `loadCommitsGo` only appends to the commits table. -/
theorem loadCommitsGo_append (ts : List TCommit) :
    ∀ (ctab : List CommitRow) (rid : Nat) (cmap amap : List (String × Nat))
      (mtab : List CommitRow),
      loadCommitsGo ctab rid cmap amap ts = .ok mtab → ∃ d, mtab = ctab ++ d := by
  induction ts with
  | nil =>
      intro ctab rid cmap amap mtab h
      have h' : ctab = mtab := by simpa [loadCommitsGo] using h
      exact ⟨[], by rw [← h']; simp⟩
  | cons c rest ih =>
      intro ctab rid cmap amap mtab h
      unfold loadCommitsGo at h
      by_cases h1 : truthyStr c.sha
      · rw [if_neg (by simp [h1])] at h
        by_cases h2 : ctab.any (fun r => r.sha == c.sha.getD "")
        · rw [if_pos h2] at h
          exact ih ctab rid cmap amap mtab h
        · rw [if_neg h2] at h
          cases hck : c.committer_key.bind (fun k => pmapGet cmap k) with
          | none => rw [hck] at h; exact ih ctab rid cmap amap mtab h
          | some committerId =>
              rw [hck] at h
              cases hak : c.author_key.bind (fun k => pmapGet amap k) with
              | none => rw [hak] at h; exact ih ctab rid cmap amap mtab h
              | some authorId =>
                  rw [hak] at h
                  cases hca : c.committed_at with
                  | none => rw [hca] at h; exact absurd h (by simp)
                  | some ca =>
                      rw [hca] at h
                      obtain ⟨d, hd⟩ := ih _ rid cmap amap mtab h
                      exact ⟨_, by rw [hd, List.append_assoc]⟩
      · rw [if_pos (by simp [Bool.not_eq_true] at h1; simp [h1])] at h
        exact ih ctab rid cmap amap mtab h

/-- Replaying a whole commit batch on its own output table inserts
nothing: every batch entry is now either invalid, already stored (by the
`sha` idempotency guard), or unresolvable exactly as before. -/
theorem loadCommitsGo_replay (ts : List TCommit) :
    ∀ (ctab : List CommitRow) (rid : Nat) (cmap amap : List (String × Nat))
      (mtab : List CommitRow),
      loadCommitsGo ctab rid cmap amap ts = .ok mtab →
      loadCommitsGo mtab rid cmap amap ts = .ok mtab := by
  induction ts with
  | nil =>
      intro ctab rid cmap amap mtab h
      have h' : ctab = mtab := by simpa [loadCommitsGo] using h
      rw [← h']
      rfl
  | cons c rest ih =>
      intro ctab rid cmap amap mtab h
      unfold loadCommitsGo at h ⊢
      by_cases h1 : truthyStr c.sha
      · rw [if_neg (by simp [h1])] at h ⊢
        by_cases h2 : ctab.any (fun r => r.sha == c.sha.getD "")
        · rw [if_pos h2] at h
          obtain ⟨d, hd⟩ := loadCommitsGo_append rest ctab rid cmap amap mtab h
          have h2' : mtab.any (fun r => r.sha == c.sha.getD "") = true := by
            rw [hd, List.any_append, h2]
            simp
          rw [if_pos h2']
          exact ih ctab rid cmap amap mtab h
        · rw [if_neg h2] at h
          cases hck : c.committer_key.bind (fun k => pmapGet cmap k) with
          | none =>
              rw [hck] at h
              by_cases h2' : mtab.any (fun r => r.sha == c.sha.getD "")
              · rw [if_pos h2']
                exact ih ctab rid cmap amap mtab h
              · rw [if_neg h2']
                exact ih ctab rid cmap amap mtab h
          | some committerId =>
              rw [hck] at h
              cases hak : c.author_key.bind (fun k => pmapGet amap k) with
              | none =>
                  rw [hak] at h
                  by_cases h2' : mtab.any (fun r => r.sha == c.sha.getD "")
                  · rw [if_pos h2']
                    exact ih ctab rid cmap amap mtab h
                  · rw [if_neg h2']
                    exact ih ctab rid cmap amap mtab h
              | some authorId =>
                  rw [hak] at h
                  cases hca : c.committed_at with
                  | none => rw [hca] at h; exact absurd h (by simp)
                  | some ca =>
                      rw [hca] at h
                      obtain ⟨d, hd⟩ := loadCommitsGo_append rest _ rid cmap amap mtab h
                      have h2' : mtab.any (fun r => r.sha == c.sha.getD "") = true := by
                        rw [hd]
                        simp [List.any_append]
                      rw [if_pos h2']
                      exact ih _ rid cmap amap mtab h
      · rw [if_pos (by simp [Bool.not_eq_true] at h1; simp [h1])] at h ⊢
        exact ih ctab rid cmap amap mtab h

/-- Replaying the repository upsert on its own output table finds the row
it resolved to and returns the same id without inserting. -/
theorem loadRepository_replay (repos : List RepoRow) (rd : Option RepoData)
    (rtab : List RepoRow) (rid : Nat)
    (h : loadRepository repos rd = .ok (rtab, some rid)) :
    loadRepository rtab rd = .ok (rtab, some rid) := by
  unfold loadRepository at h ⊢
  cases rd with
  | none => exact absurd ((okPair_inj h).2) (by simp)
  | some r =>
      dsimp only at h ⊢
      cases hfind : repos.find? (fun row => some row.full_name == r.full_name) with
      | some row =>
          rw [hfind] at h
          obtain ⟨h1, h2⟩ := okPair_inj h
          have h2' := Option.some.inj h2
          subst h1
          subst h2'
          rw [hfind]
      | none =>
          rw [hfind] at h
          dsimp only at h
          split at h
          · rename_i nm ow fn u hn ho hf hu
            obtain ⟨h1, h2⟩ := okPair_inj h
            have h2' := Option.some.inj h2
            rw [← h1, List.find?_append, hfind, Option.none_or]
            have hfx : ([{ id := repos.length + 1
                           name := nm
                           owner := ow
                           full_name := fn
                           description := r.description
                           url := u
                           created_at := r.created_at }] : List RepoRow).find?
                  (fun row => some row.full_name == r.full_name) =
                some { id := repos.length + 1
                       name := nm
                       owner := ow
                       full_name := fn
                       description := r.description
                       url := u
                       created_at := r.created_at } := by
              simp [List.find?, hf]
            rw [hfx]
            subst h2'
            rfl
          · exact absurd h (by simp)

/-- Running `load_data` a second time with the same batch against the
store the first run produced returns the same flag and the identical
store. -/
theorem load_data_idem (s : Store) (rd : Option RepoData)
    (cds ads : List Person) (ts : List TCommit) :
    load_data (load_data s rd cds ads ts).2 rd cds ads ts =
      load_data s rd cds ads ts := by
  cases hrep : loadRepository s.repos rd with
  | error e =>
      have hr1 : load_data s rd cds ads ts = (false, s) := by
        unfold load_data
        rw [hrep]
      rw [hr1]
      exact hr1
  | ok pr =>
      rcases pr with ⟨rtab, rid?⟩
      cases rid? with
      | none =>
          have hr1 : load_data s rd cds ads ts = (false, s) := by
            unfold load_data
            rw [hrep]
          rw [hr1]
          exact hr1
      | some rid =>
          cases hcs : loadPersonsGo s.committers [] cds with
          | error e =>
              have hr1 : load_data s rd cds ads ts = (false, s) := by
                unfold load_data
                rw [hrep]
                dsimp only
                rw [hcs]
              rw [hr1]
              exact hr1
          | ok prc =>
              rcases prc with ⟨ctab, cmap⟩
              cases has_ : loadPersonsGo s.authors [] ads with
              | error e =>
                  have hr1 : load_data s rd cds ads ts = (false, s) := by
                    unfold load_data
                    rw [hrep]
                    dsimp only
                    rw [hcs]
                    dsimp only
                    rw [has_]
                  rw [hr1]
                  exact hr1
              | ok pra =>
                  rcases pra with ⟨atab, amap⟩
                  cases hm : loadCommitsGo s.commits rid cmap amap ts with
                  | error e =>
                      have hr1 : load_data s rd cds ads ts = (false, s) := by
                        unfold load_data
                        rw [hrep]
                        dsimp only
                        rw [hcs]
                        dsimp only
                        rw [has_]
                        dsimp only
                        rw [hm]
                      rw [hr1]
                      exact hr1
                  | ok mtab =>
                      have hr1 : load_data s rd cds ads ts =
                          (true, { repos := rtab, committers := ctab,
                                   authors := atab, commits := mtab }) := by
                        unfold load_data
                        rw [hrep]
                        dsimp only
                        rw [hcs]
                        dsimp only
                        rw [has_]
                        dsimp only
                        rw [hm]
                      rw [hr1]
                      have hrep2 := loadRepository_replay s.repos rd rtab rid hrep
                      have hcs2 := loadPersonsGo_replay cds s.committers [] ctab cmap hcs
                      have has2 := loadPersonsGo_replay ads s.authors [] atab amap has_
                      have hm2 := loadCommitsGo_replay ts s.commits rid cmap amap mtab hm
                      show load_data { repos := rtab
                                       committers := ctab
                                       authors := atab
                                       commits := mtab } rd cds ads ts = _
                      unfold load_data
                      rw [show ({ repos := rtab
                                  committers := ctab
                                  authors := atab
                                  commits := mtab } : Store).repos = rtab from rfl,
                          hrep2]
                      dsimp only
                      rw [hcs2]
                      dsimp only
                      rw [has2]
                      dsimp only
                      rw [hm2]

/-- C1: running the Loader's `load_data` twice in succession with the
same transformed batch against the same store yields the identical store
— in particular exactly the same row counts in all four tables; the
second run creates no duplicate repository, person, or commit rows. -/
theorem C1_load_twice_equals_once (s : Store) (rd : Option RepoData)
    (cds ads : List Person) (ts : List TCommit) :
    load_data (load_data s rd cds ads ts).2 rd cds ads ts =
      load_data s rd cds ads ts ∧
    (load_data (load_data s rd cds ads ts).2 rd cds ads ts).2.repos.length =
      (load_data s rd cds ads ts).2.repos.length ∧
    (load_data (load_data s rd cds ads ts).2 rd cds ads ts).2.committers.length =
      (load_data s rd cds ads ts).2.committers.length ∧
    (load_data (load_data s rd cds ads ts).2 rd cds ads ts).2.authors.length =
      (load_data s rd cds ads ts).2.authors.length ∧
    (load_data (load_data s rd cds ads ts).2 rd cds ads ts).2.commits.length =
      (load_data s rd cds ads ts).2.commits.length := by
  have h := load_data_idem s rd cds ads ts
  refine ⟨h, ?_, ?_, ?_, ?_⟩ <;> rw [h]

/-! ## C6: identity-resolution determinism -/

/-- Two raw person records share an identity key: equal (truthy) logins,
or — when login is absent (Python-falsy) in both — equal (truthy)
emails. -/
def sameIdKey (p1 p2 : Person) : Bool :=
  (truthyStr p1.login && truthyStr p2.login && (p1.login == p2.login)) ||
  (!truthyStr p1.login && !truthyStr p2.login &&
    truthyStr p1.email && truthyStr p2.email && (p1.email == p2.email))

/-- A person record whose lookup (by truthy login) finds a row resolves
to that row without modifying the table. -/
theorem loadOnePerson_found_login (table : List PersonRow) (p : Person)
    (k : String) (r : PersonRow) (hl : truthyStr p.login = true)
    (hpl : p.login = some k)
    (hf : table.find? (fun q => q.login == some k) = some r) :
    loadOnePerson table p = .ok (table, some (k, r.id)) := by
  unfold loadOnePerson
  rw [if_neg (by simp [hl])]
  rw [show pyOr p.login p.email = some k by
    unfold pyOr
    rw [if_pos hl, hpl]]
  dsimp only
  rw [if_pos hl, hf]

/-- A person record with falsy login whose lookup by (truthy) email finds
a row resolves to that row without modifying the table. -/
theorem loadOnePerson_found_email (table : List PersonRow) (p : Person)
    (k : String) (r : PersonRow) (hl : truthyStr p.login = false)
    (he : truthyStr p.email = true) (hpe : p.email = some k)
    (hf : table.find? (fun q => q.email == some k) = some r) :
    loadOnePerson table p = .ok (table, some (k, r.id)) := by
  unfold loadOnePerson
  rw [if_neg (by simp [hl, he])]
  rw [show pyOr p.login p.email = some k by
    unfold pyOr
    rw [if_neg (by simp [hl]), hpe]]
  dsimp only
  rw [if_neg (by simp [hl]), hf]

/-- Inversion: when a record resolves without changing the table, its
lookup found a row bearing the resolved id. -/
theorem loadOnePerson_self_inv (T : List PersonRow) (p : Person)
    (k : String) (i : Nat) (h : loadOnePerson T p = .ok (T, some (k, i))) :
    (truthyStr p.login = true ∧ p.login = some k ∧
      ∃ r, T.find? (fun q => q.login == some k) = some r ∧ r.id = i) ∨
    (truthyStr p.login = false ∧ p.email = some k ∧
      ∃ r, T.find? (fun q => q.email == some k) = some r ∧ r.id = i) := by
  unfold loadOnePerson at h
  split at h
  · exact absurd ((okPair_inj h).2) (by simp)
  · rename_i hg
    split at h
    · exact absurd ((okPair_inj h).2) (by simp)
    · rename_i k0 hpy
      by_cases hlf : truthyStr p.login
      · rw [if_pos hlf] at h
        have hplogin : p.login = some k0 := by
          rw [← hpy]
          unfold pyOr
          rw [if_pos hlf]
        cases hfind : T.find? (fun q => q.login == some k0) with
        | some r =>
            rw [hfind] at h
            have h2' := Option.some.inj (okPair_inj h).2
            have hk : k0 = k := congrArg Prod.fst h2'
            have hi : r.id = i := congrArg Prod.snd h2'
            subst hk
            exact Or.inl ⟨hlf, hplogin, r, hfind, hi⟩
        | none =>
            rw [hfind] at h
            dsimp only at h
            split at h
            · exact absurd h (by simp)
            · have h1 := (okPair_inj h).1
              have hlen := congrArg List.length h1
              rw [List.length_append] at hlen
              simp at hlen
      · rw [if_neg hlf] at h
        have hpemail : p.email = some k0 := by
          rw [← hpy]
          unfold pyOr
          rw [if_neg hlf]
        have hl0 : truthyStr p.login = false := by
          cases h0 : truthyStr p.login with
          | true => exact absurd h0 hlf
          | false => rfl
        have hemail_t : truthyStr p.email = true := by
          cases hise : truthyStr p.email with
          | true => rfl
          | false =>
              exact absurd (by rw [hl0, hise]; rfl :
                (!truthyStr p.login && !truthyStr p.email) = true) hg
        cases hfind : T.find? (fun q => q.email == some k0) with
        | some r =>
            rw [hfind] at h
            have h2' := Option.some.inj (okPair_inj h).2
            have hk : k0 = k := congrArg Prod.fst h2'
            have hi : r.id = i := congrArg Prod.snd h2'
            subst hk
            exact Or.inr ⟨Bool.not_eq_true _ ▸ (by simpa using hlf), hpemail, r, hfind, hi⟩
        | none =>
            rw [hfind] at h
            dsimp only at h
            split at h
            · exact absurd h (by simp)
            · have h1 := (okPair_inj h).1
              have hlen := congrArg List.length h1
              rw [List.length_append] at hlen
              simp at hlen

/-- C6: person identity resolution is deterministic. If a record `p1`
resolves (in either role's table) to id `i` under key `k`, then after
any further loading — later records of the same run, or whole later
batches run against the same store (table evolution composes through
`loadPersonsGo`) — any record `p2` with the same identity key (equal
truthy login, or both logins absent and equal truthy email) resolves to
the **same** stored row id `i`, inserting nothing. -/
theorem C6_identity_resolution_deterministic (t1 : List PersonRow)
    (p1 p2 : Person) (t2 : List PersonRow) (k : String) (i : Nat)
    (pm pm' : List (String × Nat)) (l2 : List Person) (t3 : List PersonRow)
    (hkey : sameIdKey p1 p2 = true)
    (h1 : loadOnePerson t1 p1 = .ok (t2, some (k, i)))
    (h2 : loadPersonsGo t2 pm l2 = .ok (t3, pm')) :
    loadOnePerson t3 p2 = .ok (t3, some (k, i)) := by
  obtain ⟨d, hd⟩ := loadPersonsGo_append l2 t2 pm t3 pm' h2
  have h3 : loadOnePerson t3 p1 = .ok (t3, some (k, i)) := by
    rw [hd]
    exact loadOnePerson_replay t1 p1 t2 k i h1 d
  have hinv := loadOnePerson_self_inv t3 p1 k i h3
  unfold sameIdKey at hkey
  rcases Bool.or_eq_true_iff.mp hkey with hA | hB
  · simp only [Bool.and_eq_true, beq_iff_eq] at hA
    obtain ⟨⟨hl1, hl2⟩, heq⟩ := hA
    rcases hinv with ⟨_, hpl1, r, hf, hrid⟩ | ⟨hfalse, _⟩
    · have hpl2 : p2.login = some k := by rw [← heq, hpl1]
      rw [← hrid]
      exact loadOnePerson_found_login t3 p2 k r hl2 hpl2 hf
    · rw [hl1] at hfalse
      exact absurd hfalse (by simp)
  · simp only [Bool.and_eq_true, Bool.not_eq_true', beq_iff_eq] at hB
    obtain ⟨⟨⟨⟨hl1, hl2⟩, he1⟩, he2⟩, heq⟩ := hB
    rcases hinv with ⟨htrue, _⟩ | ⟨_, hpe1, r, hf, hrid⟩
    · rw [hl1] at htrue
      exact absurd htrue (by simp)
    · have hpe2 : p2.email = some k := by rw [← heq, hpe1]
      rw [← hrid]
      exact loadOnePerson_found_email t3 p2 k r hl2 he2 hpe2 hf

/-- Witness for `C6_identity_resolution_deterministic`: two records with
login `alice` but different names, an empty starting table and no
intervening records — both resolve to row id 1. -/
theorem C6_identity_resolution_deterministic_witness :
    loadOnePerson [{ id := 1
                     login := some "alice"
                     name := some "n1"
                     email := none
                     avatar_url := none }]
      { login := some "alice", name := some "n2", email := some "e",
        avatar_url := none } =
      .ok ([{ id := 1
              login := some "alice"
              name := some "n1"
              email := none
              avatar_url := none }], some ("alice", 1)) :=
  C6_identity_resolution_deterministic []
    { login := some "alice", name := some "n1", email := none, avatar_url := none }
    { login := some "alice", name := some "n2", email := some "e", avatar_url := none }
    [{ id := 1
       login := some "alice"
       name := some "n1"
       email := none
       avatar_url := none }]
    "alice" 1 [] [] []
    [{ id := 1
       login := some "alice"
       name := some "n1"
       email := none
       avatar_url := none }]
    (by decide) (by rfl) (by rfl)

/-! ## C8: longest streak -/

/-- The spec's notion of a run: the author has at least one commit on
each of the `n` consecutive calendar days `start`, `start + 1`, ...,
`start + n - 1` (each day's date differs from the previous day's by
exactly one). -/
def hasRun (ds : List Int) (start : Int) (n : Nat) : Prop :=
  ∀ j : Nat, j < n → (start + (j : Int)) ∈ ds

theorem numbered_snd_mem (ds : List Int) :
    ∀ (n : Int) (p : Int × Int), p ∈ numbered n ds → p.2 ∈ ds := by
  induction ds with
  | nil => intro n p hp; simp [numbered] at hp
  | cons d rest ih =>
      intro n p hp
      rcases List.mem_cons.mp hp with h | h
      · rw [h]; exact List.mem_cons_self d rest
      · exact List.mem_cons_of_mem d (ih (n + 1) p h)

theorem numbered_mem_of_mem (ds : List Int) :
    ∀ (n : Int) (v : Int), v ∈ ds → ∃ g, (g, v) ∈ numbered n ds := by
  induction ds with
  | nil => intro n v hv; simp at hv
  | cons d rest ih =>
      intro n v hv
      rcases List.mem_cons.mp hv with h | h
      · exact ⟨d - n, by rw [h]; exact List.mem_cons_self _ _⟩
      · obtain ⟨g, hg⟩ := ih (n + 1) v h
        exact ⟨g, List.mem_cons_of_mem _ hg⟩

theorem numbered_key_ge (rest : List Int) :
    ∀ (n d : Int), List.Pairwise (· < ·) (d :: rest) →
      ∀ p ∈ numbered n (d :: rest), d - n ≤ p.1 := by
  induction rest with
  | nil =>
      intro n d hinc p hp
      have : p = (d - n, d) := by simpa [numbered] using hp
      rw [this]
  | cons e rest1 ih =>
      intro n d hinc p hp
      rcases List.mem_cons.mp hp with h | h
      · rw [h]
      · have hde : d < e := (List.pairwise_cons.mp hinc).1 e (List.mem_cons_self _ _)
        have hince : List.Pairwise (· < ·) (e :: rest1) := (List.pairwise_cons.mp hinc).2
        have := ih (n + 1) e hince p h
        omega

theorem grpOf_cons_pos (n d g : Int) (rest : List Int)
    (hk : (d - n == g) = true) :
    grpOf n (d :: rest) g = d :: grpOf (n + 1) rest g := by
  simp [grpOf, numbered, List.filter, hk]

theorem grpOf_cons_neg (n d g : Int) (rest : List Int)
    (hk : (d - n == g) = false) :
    grpOf n (d :: rest) g = grpOf (n + 1) rest g := by
  simp [grpOf, numbered, List.filter, hk]

theorem grpOf_subset (n g : Int) (ds : List Int) :
    ∀ x ∈ grpOf n ds g, x ∈ ds := by
  intro x hx
  unfold grpOf at hx
  rcases List.mem_map.mp hx with ⟨p, hp, hpx⟩
  exact hpx ▸ numbered_snd_mem ds n p (List.mem_of_mem_filter hp)

theorem grpOf_empty (n g d : Int) (rest : List Int)
    (hinc : List.Pairwise (· < ·) (d :: rest))
    (hg : g < d - n) : grpOf n (d :: rest) g = [] := by
  unfold grpOf
  rw [List.map_eq_nil_iff, List.filter_eq_nil_iff]
  intro p hp
  have := numbered_key_ge rest n d hinc p hp
  simp only [beq_iff_eq]
  omega

theorem grpOf_mem_of_key (ds : List Int) (n g v : Int)
    (hmem : (g, v) ∈ numbered n ds) : v ∈ grpOf n ds g := by
  unfold grpOf
  exact List.mem_map.mpr ⟨(g, v), List.mem_filter.mpr ⟨hmem, by simp⟩, rfl⟩

/-- For a strictly increasing date list, each group id's dates form a
consecutive-day chain. -/
theorem grpOf_chain (ds : List Int) (hinc : List.Pairwise (· < ·) ds) :
    ∀ (n g : Int), List.Chain' (fun a b => b = a + 1) (grpOf n ds g) := by
  induction ds with
  | nil => intro n g; simp [grpOf, numbered]
  | cons d rest ih =>
      intro n g
      have hrest : List.Pairwise (· < ·) rest := (List.pairwise_cons.mp hinc).2
      have hhead : ∀ y ∈ rest, d < y := (List.pairwise_cons.mp hinc).1
      by_cases hk : (d - n == g) = true
      · rw [grpOf_cons_pos n d g rest hk]
        have hgd : g = d - n := by
          have := beq_iff_eq.mp hk
          omega
        cases rest with
        | nil => simp [grpOf, numbered]
        | cons e rest1 =>
            by_cases he : e = d + 1
            · have hk2 : (e - (n + 1) == g) = true := by
                simp only [beq_iff_eq]
                omega
              rw [grpOf_cons_pos (n + 1) e g rest1 hk2]
              rw [List.chain'_cons]
              refine ⟨he, ?_⟩
              have hch := ih hrest (n + 1) g
              rw [grpOf_cons_pos (n + 1) e g rest1 hk2] at hch
              exact hch
            · have hde : d < e := hhead e (List.mem_cons_self _ _)
              have hz : g < e - (n + 1) := by omega
              rw [grpOf_empty (n + 1) g e rest1 hrest hz]
              simp
      · rw [grpOf_cons_neg n d g rest (by simpa using hk)]
        exact ih hrest (n + 1) g

/-- In a consecutive-day chain, the `j`-th element is the head plus
`j`. -/
theorem chain_succ_get (ms : List Int)
    (hch : List.Chain' (fun a b => b = a + 1) ms) :
    ∀ (j : Nat) (hj : j < ms.length), ms[j] = ms.headD 0 + j := by
  induction ms with
  | nil => intro j hj; simp at hj
  | cons x tail ih =>
      intro j hj
      cases j with
      | zero => simp
      | succ j0 =>
          cases tail with
          | nil => simp at hj
          | cons y tail1 =>
              have hlink : y = x + 1 := (List.chain'_cons.mp hch).1
              have hch1 := (List.chain'_cons.mp hch).2
              have hj0 : j0 < (y :: tail1).length := by
                simpa using Nat.lt_of_succ_lt_succ hj
              have hidx := ih hch1 j0 hj0
              rw [List.getElem_cons_succ, hidx]
              simp only [List.headD_cons]
              rw [hlink]
              push_cast
              ring

theorem chain_succ_mem_bounds (ms : List Int)
    (hch : List.Chain' (fun a b => b = a + 1) ms) :
    ∀ x ∈ ms, ms.headD 0 ≤ x ∧ x ≤ ms.headD 0 + ms.length - 1 := by
  intro x hx
  obtain ⟨j, hj, hjx⟩ := List.mem_iff_getElem.mp hx
  rw [← hjx, chain_succ_get ms hch j hj]
  omega

theorem foldl_min_eq (xs : List Int) :
    ∀ x, (∀ y ∈ xs, x ≤ y) → xs.foldl min x = x := by
  induction xs with
  | nil => intro x hx; rfl
  | cons z zs ih =>
      intro x hx
      simp only [List.foldl_cons]
      rw [min_eq_left (hx z (List.mem_cons_self _ _))]
      exact ih x (fun y hy => hx y (List.mem_cons_of_mem _ hy))

theorem chain_succ_min (ms : List Int)
    (hch : List.Chain' (fun a b => b = a + 1) ms) (hne : ms ≠ []) :
    listMinD ms = ms.headD 0 := by
  cases ms with
  | nil => exact absurd rfl hne
  | cons x xs =>
      show xs.foldl min x = x
      apply foldl_min_eq
      intro y hy
      have := (chain_succ_mem_bounds (x :: xs) hch y
        (List.mem_cons_of_mem _ hy)).1
      simpa using this

theorem chain_succ_max (ms : List Int)
    (hch : List.Chain' (fun a b => b = a + 1) ms) (hne : ms ≠ []) :
    listMaxD ms = ms.headD 0 + ms.length - 1 := by
  induction ms with
  | nil => exact absurd rfl hne
  | cons x tail ih =>
      cases tail with
      | nil => simp [listMaxD]
      | cons y tail1 =>
          have hlink : y = x + 1 := (List.chain'_cons.mp hch).1
          have hch1 := (List.chain'_cons.mp hch).2
          have hstep : listMaxD (x :: y :: tail1) = listMaxD (y :: tail1) := by
            show (y :: tail1).foldl max x = tail1.foldl max y
            simp only [List.foldl_cons]
            rw [max_eq_right (by omega : x ≤ y)]
          rw [hstep, ih hch1 (by simp)]
          simp only [List.headD_cons, List.length_cons]
          rw [hlink]
          push_cast
          ring

/-- If an author committed on day `v` and on day `v + 1`, both days carry
the same group id. -/
theorem key_succ (ds : List Int) (hinc : List.Pairwise (· < ·) ds) :
    ∀ (n g v : Int), (g, v) ∈ numbered n ds → (v + 1) ∈ ds →
      (g, v + 1) ∈ numbered n ds := by
  induction ds with
  | nil => intro n g v h; simp [numbered] at h
  | cons d rest ih =>
      intro n g v hgv hv1
      have hhead : ∀ y ∈ rest, d < y := (List.pairwise_cons.mp hinc).1
      have hrest := (List.pairwise_cons.mp hinc).2
      rcases List.mem_cons.mp hgv with h | h
      · have hg : g = d - n := congrArg Prod.fst h
        have hv : v = d := congrArg Prod.snd h
        rcases List.mem_cons.mp hv1 with h1 | h1
        · exact absurd h1 (by omega)
        · cases rest with
          | nil => simp at h1
          | cons e rest1 =>
              have hde : d < e := hhead e (List.mem_cons_self _ _)
              have he_le : e ≤ v + 1 := by
                rcases List.mem_cons.mp h1 with h2 | h2
                · omega
                · have := (List.pairwise_cons.mp hrest).1 (v + 1) h2
                  omega
              have he : e = v + 1 := by omega
              refine List.mem_cons_of_mem _ ?_
              have hpair : (g, v + 1) = (e - (n + 1), e) := by
                have : g = e - (n + 1) := by omega
                rw [this, he]
              rw [hpair]
              exact List.mem_cons_self _ _
      · have hvrest : v ∈ rest := numbered_snd_mem rest (n + 1) (g, v) h
        have hv1rest : v + 1 ∈ rest := by
          rcases List.mem_cons.mp hv1 with h1 | h1
          · have hdv : d < v := hhead v hvrest
            exact absurd h1 (by omega)
          · exact h1
        exact List.mem_cons_of_mem _ (ih hrest (n + 1) g v h hv1rest)

/-- Soundness of the `streaks` CTE: each streak row has positive length,
spans `start .. start + length - 1`, and the author committed on each
of those consecutive days. -/
theorem streaksOf_sound (ds : List Int) (hinc : List.Pairwise (· < ·) ds) :
    ∀ s ∈ streaksOf ds,
      0 < s.2.2 ∧ s.2.1 = s.1 + s.2.2 - 1 ∧ hasRun ds s.1 s.2.2 := by
  intro s hs
  unfold streaksOf at hs
  rcases List.mem_map.mp hs with ⟨g, hg, hgs⟩
  have hch := grpOf_chain ds hinc 1 g
  have hne : grpOf 1 ds g ≠ [] := by
    have hg' := List.mem_dedup.mp hg
    rcases List.mem_map.mp hg' with ⟨p, hp, hpg⟩
    have hp' : (g, p.2) ∈ numbered 1 ds := by
      rw [← hpg]
      exact hp
    have hmem := grpOf_mem_of_key ds 1 g p.2 hp'
    intro hnil
    rw [hnil] at hmem
    simp at hmem
  have hmin := chain_succ_min (grpOf 1 ds g) hch hne
  have hmax := chain_succ_max (grpOf 1 ds g) hch hne
  rw [← hgs]
  refine ⟨?_, ?_, ?_⟩
  · cases hms : grpOf 1 ds g with
    | nil => exact absurd hms hne
    | cons z zs => simp [hms]
  · show listMaxD (grpOf 1 ds g) =
      listMinD (grpOf 1 ds g) + (grpOf 1 ds g).length - 1
    rw [hmin, hmax]
  · intro j hj
    show listMinD (grpOf 1 ds g) + (j : Int) ∈ ds
    rw [hmin]
    have hj' : j < (grpOf 1 ds g).length := hj
    have hidx := chain_succ_get (grpOf 1 ds g) hch j hj'
    have hmem : (grpOf 1 ds g)[j] ∈ grpOf 1 ds g := List.getElem_mem hj'
    rw [hidx] at hmem
    exact grpOf_subset 1 g ds _ hmem

/-- Completeness of the `streaks` CTE: a run of `n` consecutive commit
days is contained in a single group, so some streak row has length at
least `n`. -/
theorem streaksOf_complete (ds : List Int) (hinc : List.Pairwise (· < ·) ds)
    (start : Int) (n : Nat) (hn : 0 < n) (hr : hasRun ds start n) :
    ∃ s ∈ streaksOf ds, n ≤ s.2.2 := by
  have h0 : start ∈ ds := by simpa using hr 0 hn
  obtain ⟨g, hg⟩ := numbered_mem_of_mem ds 1 start h0
  have hkeys : ∀ j : Nat, j < n → (g, start + (j : Int)) ∈ numbered 1 ds := by
    intro j
    induction j with
    | zero => intro hj; simpa using hg
    | succ j0 ihj =>
        intro hj
        have h1 := ihj (by omega)
        have h2 : (start + (j0 : Int)) + 1 ∈ ds := by
          have := hr (j0 + 1) hj
          have hcast : start + ((j0 + 1 : Nat) : Int) = (start + (j0 : Int)) + 1 := by
            push_cast
            ring
          rw [hcast] at this
          exact this
        have h3 := key_succ ds hinc 1 g (start + (j0 : Int)) h1 h2
        have hcast : start + ((j0 + 1 : Nat) : Int) = (start + (j0 : Int)) + 1 := by
          push_cast
          ring
        rw [hcast]
        exact h3
  have hch := grpOf_chain ds hinc 1 g
  have hmem : ∀ j : Nat, j < n → start + (j : Int) ∈ grpOf 1 ds g :=
    fun j hj => grpOf_mem_of_key ds 1 g _ (hkeys j hj)
  have hb1 := (chain_succ_mem_bounds (grpOf 1 ds g) hch _ (hmem 0 hn)).1
  have hb2 := (chain_succ_mem_bounds (grpOf 1 ds g) hch _
    (hmem (n - 1) (by omega))).2
  have hlen : n ≤ (grpOf 1 ds g).length := by
    have hc : ((n - 1 : Nat) : Int) = (n : Int) - 1 := by omega
    rw [hc] at hb2
    simp only [Nat.cast_zero, add_zero] at hb1
    omega
  have hgk : g ∈ ((numbered 1 ds).map Prod.fst).dedup := by
    rw [List.mem_dedup]
    exact List.mem_map.mpr ⟨(g, start), hg, rfl⟩
  exact ⟨(listMinD (grpOf 1 ds g), listMaxD (grpOf 1 ds g),
      (grpOf 1 ds g).length),
    List.mem_map.mpr ⟨g, hgk, rfl⟩, hlen⟩

/-- The per-author distinct sorted date list is strictly increasing. -/
theorem authorDates_pairwise (rows : List (Nat × Int)) (a : Nat) :
    List.Pairwise (· < ·) (authorDates rows a) := by
  unfold authorDates
  have hs := List.sorted_insertionSort (α := Int) (· ≤ ·)
    (((rows.filter (fun r => r.1 == a)).map Prod.snd).dedup)
  have hnd : (List.insertionSort (· ≤ ·)
      (((rows.filter (fun r => r.1 == a)).map Prod.snd).dedup)).Nodup :=
    (List.perm_insertionSort (· ≤ ·) _).nodup_iff.mpr (List.nodup_dedup _)
  exact (List.Pairwise.and hs hnd).imp (fun h => lt_of_le_of_ne h.1 h.2)

/-- `ORDER BY streak_length DESC LIMIT 1` returns a member of maximal
length. -/
theorem pickLongest_spec (xs : List (Int × Int × Nat)) (x : Int × Int × Nat)
    (h : pickLongest xs = some x) : x ∈ xs ∧ ∀ y ∈ xs, y.2.2 ≤ x.2.2 := by
  cases xs with
  | nil => simp [pickLongest] at h
  | cons a l =>
      have hfold : ∀ (l2 : List (Int × Int × Nat)) (a2 : Int × Int × Nat),
          (l2.foldl (fun best c => if c.2.2 > best.2.2 then c else best) a2 = a2 ∨
            l2.foldl (fun best c => if c.2.2 > best.2.2 then c else best) a2 ∈ l2) ∧
          a2.2.2 ≤ (l2.foldl (fun best c => if c.2.2 > best.2.2 then c else best) a2).2.2 ∧
          ∀ y ∈ l2,
            y.2.2 ≤ (l2.foldl (fun best c => if c.2.2 > best.2.2 then c else best) a2).2.2 := by
        intro l2
        induction l2 with
        | nil => intro a2; exact ⟨Or.inl rfl, le_refl _, by simp⟩
        | cons c rest ih =>
            intro a2
            simp only [List.foldl_cons]
            by_cases hc : c.2.2 > a2.2.2
            · rw [if_pos hc]
              obtain ⟨ih1, ih2, ih3⟩ := ih c
              refine ⟨?_, ?_, ?_⟩
              · rcases ih1 with h1 | h1
                · exact Or.inr (by rw [h1]; exact List.mem_cons_self _ _)
                · exact Or.inr (List.mem_cons_of_mem _ h1)
              · omega
              · intro y hy
                rcases List.mem_cons.mp hy with h1 | h1
                · rw [h1]; exact ih2
                · exact ih3 y h1
            · rw [if_neg hc]
              obtain ⟨ih1, ih2, ih3⟩ := ih a2
              refine ⟨?_, ih2, ?_⟩
              · rcases ih1 with h1 | h1
                · exact Or.inl h1
                · exact Or.inr (List.mem_cons_of_mem _ h1)
              · intro y hy
                rcases List.mem_cons.mp hy with h1 | h1
                · rw [h1]; omega
                · exact ih3 y h1
      have hx : x = l.foldl (fun best c => if c.2.2 > best.2.2 then c else best) a := by
        have : some (l.foldl (fun best c => if c.2.2 > best.2.2 then c else best) a) = some x := by
          simpa [pickLongest] using h
        exact (Option.some.inj this).symm
      obtain ⟨h1, h2, h3⟩ := hfold l a
      subst hx
      refine ⟨?_, ?_⟩
      · rcases h1 with h1 | h1
        · rw [h1]; exact List.mem_cons_self _ _
        · exact List.mem_cons_of_mem _ h1
      · intro y hy
        rcases List.mem_cons.mp hy with hy1 | hy1
        · rw [hy1]; exact h2
        · exact h3 y hy1

/-- C8: the longest-streak analysis computes, per author, maximal runs of
consecutive calendar commit days via the gaps-and-islands group id
`julianday(date) - ROW_NUMBER()`, and returns a longest run across all
authors: the reported row spans `start .. start + length - 1`, each of
those days has at least one commit by the witnessing author, and no run
of consecutive commit days of any author is longer. In particular for a
single author with authored day numbers `{0, 1, 2, 4}` (encoding
2024-01-01, -02, -03, -05) the result has length 3 spanning days 0..2
(2024-01-01 to 2024-01-03). -/
theorem C8_longest_streak_correct :
    (∀ (rows : List (Nat × Int)) (st en : Int) (L : Nat),
      analyze_longest_author_streak rows = some (st, en, L) →
      (∃ a ∈ authorIds rows,
        0 < L ∧ en = st + (L : Int) - 1 ∧ hasRun (authorDates rows a) st L) ∧
      (∀ a ∈ authorIds rows, ∀ (v : Int) (n : Nat),
        hasRun (authorDates rows a) v n → n ≤ L)) ∧
    analyze_longest_author_streak [(1, 0), (1, 1), (1, 2), (1, 4)] =
      some (0, 2, 3) := by
  constructor
  · intro rows st en L h
    obtain ⟨hmem, hmax⟩ := pickLongest_spec (allStreaks rows) (st, en, L) h
    rcases List.mem_flatMap.mp hmem with ⟨a, ha, hs⟩
    have hinc := authorDates_pairwise rows a
    have hsound := streaksOf_sound (authorDates rows a) hinc (st, en, L) hs
    constructor
    · exact ⟨a, ha, hsound.1, hsound.2.1, hsound.2.2⟩
    · intro b hb v n hr
      cases Nat.eq_zero_or_pos n with
      | inl h0 => omega
      | inr hn =>
          obtain ⟨s, hsmem, hslen⟩ :=
            streaksOf_complete (authorDates rows b) (authorDates_pairwise rows b)
              v n hn hr
          have hsall : s ∈ allStreaks rows := List.mem_flatMap.mpr ⟨b, hb, hsmem⟩
          have h5 : s.2.2 ≤ L := hmax s hsall
          omega
  · decide

/-- Witness for `C8_longest_streak_correct` at the spec's example input:
one author, day numbers `{0, 1, 2, 4}` — the reported longest streak has
length 3, every day 0, 1, 2 has a commit, and no 4-day run exists. -/
theorem C8_longest_streak_correct_witness :
    (∃ a ∈ authorIds [(1, 0), (1, 1), (1, 2), (1, 4)],
      0 < 3 ∧ (2 : Int) = 0 + (3 : Int) - 1 ∧
      hasRun (authorDates [(1, 0), (1, 1), (1, 2), (1, 4)] a) 0 3) ∧
    (∀ a ∈ authorIds [(1, 0), (1, 1), (1, 2), (1, 4)], ∀ (v : Int) (n : Nat),
      hasRun (authorDates [(1, 0), (1, 1), (1, 2), (1, 4)] a) v n → n ≤ 3) :=
  C8_longest_streak_correct.1 [(1, 0), (1, 1), (1, 2), (1, 4)] 0 2 3
    C8_longest_streak_correct.2

end GithubEtl
